import Mathlib

/-!
Verification development for the cfgx configuration code generator.

The Go sources are shallowly embedded: the dynamically typed TOML value
tree (`map[string]any` / `[]any` / scalars) becomes the mutual inductive
family `GoVal`/`GoEntries`/`GoValList`/`GoTableList`; Go maps are modelled
as association lists in iteration order; machine `int64` values are
modelled as `Int` with explicit bound checks where the Go code checks for
overflow; fallible Go functions returning `(T, error)` become
`Except String T`.
-/

set_option maxHeartbeats 1000000
set_option linter.unnecessarySeqFocus false

namespace Cfgx

mutual
/-- Embedding of the dynamically typed value tree handed to the generator
by the external TOML decoder.  `table` is Go `map[string]any` (association
list, in iteration order), `arr` is `[]any`, `arrTables` is
`[]map[string]any`, `float` is `float64` (modelled by its literal
representation, since no verified property depends on float arithmetic)
and `other` stands for any further dynamic type (e.g. `time.Time`). -/
inductive GoVal where
  | str (s : String)
  | int (n : Int)
  | float (r : String)
  | bool (b : Bool)
  | other (tag : String)
  | arr (xs : GoValList)
  | table (kvs : GoEntries)
  | arrTables (ts : GoTableList)
inductive GoValList where
  | nil
  | cons (hd : GoVal) (tl : GoValList)
inductive GoEntries where
  | nil
  | cons (key : String) (val : GoVal) (tl : GoEntries)
inductive GoTableList where
  | nil
  | cons (hd : GoEntries) (tl : GoTableList)
end

/-! ## String helpers (models of the Go standard library functions used) -/

/-- Model of `strings.HasPrefix`: does the first char list begin with the
second? -/
def charsBeginWith : List Char → List Char → Bool
  | _, [] => true
  | [], _ :: _ => false
  | c :: cs, p :: ps => (c = p) && charsBeginWith cs ps

def strBeginsWith (s pat : String) : Bool :=
  charsBeginWith s.data pat.data

/-- Model of `strings.HasSuffix` on char lists, via reversal. -/
def strEndsWith (s pat : String) : Bool :=
  charsBeginWith s.data.reverse pat.data.reverse

/-- Model of `strings.TrimSuffix`: drop `pat` from the end when present. -/
def goTrimSfx (s pat : String) : String :=
  if strEndsWith s pat then ⟨s.data.take (s.data.length - pat.data.length)⟩ else s

/-- Model of `strings.TrimPrefix`: drop `pat` from the front when present. -/
def goTrimPfx (s pat : String) : String :=
  if strBeginsWith s pat then ⟨s.data.drop pat.data.length⟩ else s

/-- Model of `strings.ToUpper` (the keys handled here are ASCII). -/
def goUpper (s : String) : String := ⟨s.data.map Char.toUpper⟩

/-- Model of `strings.Split(s, ",")` on char lists. -/
def splitCommaChars : List Char → List (List Char)
  | [] => [[]]
  | c :: cs =>
    if c = ',' then [] :: splitCommaChars cs
    else
      match splitCommaChars cs with
      | [] => [[c]]
      | p :: ps => (c :: p) :: ps

def goSplitComma (s : String) : List String :=
  (splitCommaChars s.data).map (fun cs => ⟨cs⟩)

/-- Model of `strings.TrimSpace` (whitespace here: the ASCII space class). -/
def isSpaceChar (c : Char) : Bool :=
  c = ' ' || c = '\t' || c = '\n' || c = '\r'

def goTrimSpace (s : String) : String :=
  ⟨((s.data.dropWhile isSpaceChar).reverse.dropWhile isSpaceChar).reverse⟩

/-- Model of `strconv.Quote` (escaping of inner quotes is not modelled;
no verified property depends on it). -/
def goQuote (s : String) : String := "\"" ++ s ++ "\""

def maxInt64 : Int := 9223372036854775807

/-! ## strconv models -/

/-- Digit accumulation for `strconv.ParseInt(s, 10, 64)`: consumes decimal
digits, reporting overflow past the sign-dependent cutoff `bound` exactly
where Go does (`2^63 - 1` for positive input, `2^63` for negative). -/
def parseDecDigits (bound : Int) : Int → List Char → Except String Int
  | acc, [] => .ok acc
  | acc, c :: cs =>
    if c.isDigit then
      let acc' := acc * 10 + ((c.toNat : Int) - 48)
      if acc' > bound then .error ("value out of range")
      else parseDecDigits bound acc' cs
    else .error ("invalid syntax")

/-- Model of `strconv.ParseInt(s, 10, 64)`.  An optional single sign, then
one or more decimal digits, nothing else; the value must fit in `int64`. -/
def goParseInt (s : String) : Except String Int :=
  let mkErr := fun (e : String) =>
    "strconv.ParseInt: parsing " ++ goQuote s ++ ": " ++ e
  let withSign : Bool × List Char :=
    match s.data with
    | '-' :: cs => (true, cs)
    | '+' :: cs => (false, cs)
    | cs => (false, cs)
  match withSign with
  | (_, []) => .error (mkErr ("invalid syntax"))
  | (neg, cs) =>
    match parseDecDigits (if neg then maxInt64 + 1 else maxInt64) 0 cs with
    | .error e => .error (mkErr e)
    | .ok v => if neg then .ok (-v) else .ok v

/-- Model of `strconv.ParseBool`: the exact list of accepted literals. -/
def goParseBool (s : String) : Except String Bool :=
  match s with
  | "1" => .ok true
  | "t" => .ok true
  | "T" => .ok true
  | "TRUE" => .ok true
  | "true" => .ok true
  | "True" => .ok true
  | "0" => .ok false
  | "f" => .ok false
  | "F" => .ok false
  | "FALSE" => .ok false
  | "false" => .ok false
  | "False" => .ok false
  | _ => .error ("strconv.ParseBool: parsing " ++ goQuote s ++ ": invalid syntax")

/-- Nonempty run of decimal digits, nothing else. -/
def floatDigits : List Char → Bool
  | [] => false
  | [c] => c.isDigit
  | c :: cs => c.isDigit && floatDigits cs

/-- Exponent tail of a float literal: optional sign then digits. -/
def floatExp : List Char → Bool
  | [] => false
  | '+' :: cs => floatDigits cs
  | '-' :: cs => floatDigits cs
  | cs => floatDigits cs

/-- Fractional part after the dot; `seen` records whether a mantissa digit
was already consumed. -/
def floatFrac : List Char → Bool → Bool
  | [], seen => seen
  | 'e' :: cs, seen => seen && floatExp cs
  | 'E' :: cs, seen => seen && floatExp cs
  | c :: cs, seen => c.isDigit && floatFrac cs (seen || c.isDigit)

/-- Syntax acceptor for the decimal grammar of `strconv.ParseFloat`:
a decimal mantissa (digits, optionally with a dot, at least one digit
overall) with an optional exponent.  Go additionally accepts hexadecimal
float syntax and reports out-of-range values; neither is exercised by any
verified property. -/
def floatMantissa : List Char → Bool → Bool
  | [], seen => seen
  | '.' :: cs, seen => floatFrac cs seen
  | 'e' :: cs, seen => seen && floatExp cs
  | 'E' :: cs, seen => seen && floatExp cs
  | c :: cs, seen => c.isDigit && floatMantissa cs (seen || c.isDigit)

def lowerChars (cs : List Char) : List Char := cs.map Char.toLower

def goParseFloatOk (s : String) : Bool :=
  let body : List Char :=
    match s.data with
    | '-' :: cs => cs
    | '+' :: cs => cs
    | cs => cs
  let lo := lowerChars body
  if lo = ['i', 'n', 'f'] then true
  else if lo = ['i', 'n', 'f', 'i', 'n', 'i', 't', 'y'] then true
  else if lo = ['n', 'a', 'n'] then true
  else floatMantissa body false

def goParseFloat (s : String) : Except String String :=
  if goParseFloatOk s then .ok s
  else .error ("strconv.ParseFloat: parsing " ++ goQuote s ++ ": invalid syntax")

/-! ## Environment override resolution
Embedding of `internal/envoverride/envoverride.go`.  The process
environment is a total map `String → String`; as with `os.Getenv`, an
unset variable is indistinguishable from one set to the empty string. -/

abbrev EnvMap := String → String

/-- Embedding of `convertValue` in envoverride.go: convert an override
string to the runtime type of the original value.  Strings pass through;
integers, floats and booleans are parsed strictly; every other original
type (the `default` case in the Go type switch, which includes arrays
reached through `Apply`'s top-level default branch) passes the raw
override string through. -/
def convertValue (envVal : String) (orig : GoVal) : Except String GoVal :=
  match orig with
  | .str _ => .ok (.str envVal)
  | .int _ =>
    match goParseInt envVal with
    | .ok v => .ok (.int v)
    | .error e => .error ("expected integer: " ++ e)
  | .float _ =>
    match goParseFloat envVal with
    | .ok v => .ok (.float v)
    | .error e => .error ("expected float: " ++ e)
  | .bool _ =>
    match goParseBool envVal with
    | .ok v => .ok (.bool v)
    | .error e => .error ("expected boolean: " ++ e)
  | _ => .ok (.str envVal)

/-- Embedding of `convertArray` in envoverride.go: split the override on
commas, trim each part, convert each against the sample element. -/
def convertArrayParts (sample : GoVal) : List String → Except String GoValList
  | [] => .ok .nil
  | part :: rest =>
    match convertValue (goTrimSpace part) sample with
    | .error e => .error e
    | .ok v =>
      match convertArrayParts sample rest with
      | .error e => .error e
      | .ok vs => .ok (.cons v vs)

def convertArray (envVal : String) (sample : GoVal) : Except String GoValList :=
  convertArrayParts sample (goSplitComma envVal)

mutual
/-- Embedding of `applyNested` in envoverride.go.  Iterates the entries of
a nested map; the loop body for one entry is `applyNestedHead`. -/
def applyNested (env : EnvMap) (pfx : String) : GoEntries → Except String GoEntries
  | .nil => .ok .nil
  | .cons key v rest =>
    match applyNestedHead env (pfx ++ "_" ++ goUpper key) v with
    | .error e => .error e
    | .ok v' =>
      match applyNested env pfx rest with
      | .error e => .error e
      | .ok rest' => .ok (.cons key v' rest')
/-- The loop body of `applyNested` for one entry: nested maps recurse
with the extended key, arrays are comma-split overrides typed after
their first element (empty arrays are never overridden), all other
values are scalar overrides; an env value equal to `""` always leaves
the entry untouched. -/
def applyNestedHead (env : EnvMap) (envKey : String) : GoVal → Except String GoVal
  | .table m =>
    match applyNested env envKey m with
    | .error e => .error e
    | .ok m' => .ok (.table m')
  | .arr xs =>
    if env envKey = "" then .ok (.arr xs)
    else
      match xs with
      | .nil => .ok (.arr .nil)
      | .cons x _ =>
        match convertArray (env envKey) x with
        | .error e => .error ("invalid array value for " ++ envKey ++ ": " ++ e)
        | .ok ws => .ok (.arr ws)
  | w =>
    if env envKey = "" then .ok w
    else
      match convertValue (env envKey) w with
      | .error e => .error ("invalid value for " ++ envKey ++ ": " ++ e)
      | .ok w' => .ok w'
end

/-- The loop body of `Apply` for one top-level entry.  Nested maps are
delegated to `applyNested` (errors wrapped with the section name); every
other top-level value — including arrays, which at this level fall into
the `default` branch of the Go type switch — is treated as a scalar
override through `convertValue`. -/
def applyTopHead (env : EnvMap) (key pfx : String) : GoVal → Except String GoVal
  | .table m =>
    match applyNested env pfx m with
    | .error e => .error ("error in section " ++ key ++ ": " ++ e)
    | .ok m' => .ok (.table m')
  | w =>
    if env pfx = "" then .ok w
    else
      match convertValue (env pfx) w with
      | .error e => .error ("invalid value for " ++ pfx ++ ": " ++ e)
      | .ok w' => .ok w'

/-- Embedding of `Apply` in envoverride.go: top-level entries. -/
def applyTop (env : EnvMap) : GoEntries → Except String GoEntries
  | .nil => .ok .nil
  | .cons key v rest =>
    match applyTopHead env key ("CONFIG_" ++ goUpper key) v with
    | .error e => .error e
    | .ok v' =>
      match applyTop env rest with
      | .error e => .error e
      | .ok rest' => .ok (.cons key v' rest')

/-- Embedding of `envoverride.Apply`. -/
def apply (env : EnvMap) (data : GoEntries) : Except String GoEntries :=
  applyTop env data

/-! ## Structural paths
A path is the list of keys from the root to a value; its environment
variable name upper-cases the segments and joins them with underscores
under the fixed `CONFIG_` namespace (spec §4.3/§6). -/

def lookupEntry : GoEntries → String → Option GoVal
  | .nil, _ => none
  | .cons k v rest, key => if k = key then some v else lookupEntry rest key

def lookupPath : GoEntries → List String → Option GoVal
  | _, [] => none
  | t, [k] => lookupEntry t k
  | t, k :: rest =>
    match lookupEntry t k with
    | some (.table m) => lookupPath m rest
    | _ => none

def joinUpper : List String → String
  | [] => ""
  | [k] => goUpper k
  | k :: rest => goUpper k ++ "_" ++ joinUpper rest

def envKeyOf (path : List String) : String :=
  "CONFIG_" ++ joinUpper path

/-! ## Duration parsing
Model of Go's `time.ParseDuration`, the external standard-library routine
behind `isDurationString` and `writeDurationLiteral`.  Durations are
`int64` nanosecond counts, modelled as `Int` with the overflow checks made
explicit.  The fractional-part contribution, which Go computes in
`float64`, is modelled in exact integer arithmetic `(f * unit) / scale`;
the two agree whenever the float computation is exact. -/

/-- Model of time.go `leadingInt`: consume leading decimal digits with
Go's `int64` overflow cutoffs. -/
def leadingInt : Int → List Char → Except String (Int × List Char)
  | x, [] => .ok (x, [])
  | x, c :: cs =>
    if c.isDigit then
      if x > maxInt64 / 10 then .error ("time: bad leading int")
      else
        let x' := x * 10 + ((c.toNat : Int) - 48)
        if x' > maxInt64 then .error ("time: bad leading int")
        else leadingInt x' cs
    else .ok (x, c :: cs)

/-- Model of time.go `leadingFraction`: consume digits after the decimal
point, accumulating value and scale, silently dropping digits once the
accumulator would overflow. -/
def leadingFraction : Int → Int → Bool → List Char → Int × Int × List Char
  | f, scale, _, [] => (f, scale, [])
  | f, scale, overflow, c :: cs =>
    if c.isDigit then
      if overflow then leadingFraction f scale true cs
      else if f > maxInt64 / 10 then leadingFraction f scale true cs
      else
        let y := f * 10 + ((c.toNat : Int) - 48)
        if y > maxInt64 then leadingFraction f scale true cs
        else leadingFraction y (scale * 10) false cs
    else (f, scale, c :: cs)

/-- Characters of the unit token: everything up to the next digit or dot. -/
def unitSpan : List Char → List Char × List Char
  | [] => ([], [])
  | c :: cs =>
    if c = '.' ∨ c.isDigit then ([], c :: cs)
    else
      let (u, r) := unitSpan cs
      (c :: u, r)

/-- The unit table of `time.ParseDuration` (nanosecond values). -/
def unitValue : String → Option Int
  | "ns" => some 1
  | "us" => some 1000
  | "µs" => some 1000
  | "μs" => some 1000
  | "ms" => some 1000000
  | "s" => some 1000000000
  | "m" => some 60000000000
  | "h" => some 3600000000000
  | _ => none

/-- One `number[.fraction]unit` segment per iteration.  The `fuel`
argument only bounds the iteration count for structural termination; each
iteration consumes at least one character, so `length + 1` fuel is always
sufficient and the fuel-exhausted branch is unreachable from
`parseDuration`. -/
def parseDurationLoop : Nat → Int → List Char → Except String Int
  | 0, _, _ => .error ("time: invalid duration")
  | _ + 1, d, [] => .ok d
  | fuel + 1, d, c :: cs =>
    if ¬(c = '.' ∨ c.isDigit) then .error ("time: invalid duration")
    else
      match leadingInt 0 (c :: cs) with
      | .error _ => .error ("time: invalid duration")
      | .ok (v, rest1) =>
        let pre : Bool := rest1.length ≠ (c :: cs).length
        let fracStep : Int × Int × List Char × Bool :=
          match rest1 with
          | '.' :: cs2 =>
            let (f, sc, r) := leadingFraction 0 1 false cs2
            (f, sc, r, r.length ≠ cs2.length)
          | _ => (0, 1, rest1, false)
        match fracStep with
        | (f, scale, rest2, post) =>
          if pre = false ∧ post = false then .error ("time: invalid duration")
          else
            match unitSpan rest2 with
            | (u, rest3) =>
              if u = [] then .error ("time: missing unit in duration")
              else
                match unitValue ⟨u⟩ with
                | none => .error ("time: unknown unit " ++ goQuote ⟨u⟩)
                | some unit =>
                  if v > maxInt64 / unit then .error ("time: invalid duration")
                  else
                    let v1 := v * unit
                    let v2 := if f > 0 then v1 + (f * unit) / scale else v1
                    if v2 > maxInt64 then .error ("time: invalid duration")
                    else
                      let d' := d + v2
                      if d' > maxInt64 then .error ("time: invalid duration")
                      else parseDurationLoop fuel d' rest3

/-- Model of `time.ParseDuration`: optional sign, the special case `"0"`,
then a nonempty sequence of `number[.fraction]unit` segments. -/
def parseDuration (s : String) : Except String Int :=
  let signSplit : Bool × List Char :=
    match s.data with
    | '-' :: cs => (true, cs)
    | '+' :: cs => (false, cs)
    | cs => (false, cs)
  match signSplit with
  | (neg, cs) =>
    if cs = ['0'] then .ok 0
    else if cs = [] then .error ("time: invalid duration " ++ goQuote s)
    else
      match parseDurationLoop (cs.length + 1) 0 cs with
      | .error e => .error e
      | .ok d => .ok (if neg then -d else d)

/-- Embedding of `isDurationString` in file_handler.go. -/
def isDurationString (s : String) : Bool :=
  match parseDuration s with
  | .ok _ => true
  | .error _ => false

/-! ## Duration literals (value_writer.go `writeDurationLiteral`) -/

/-- The component table of `writeDurationLiteral`, largest to smallest. -/
def durationUnits : List (Int × String) :=
  [(3600000000000, "time.Hour"), (60000000000, "time.Minute"),
   (1000000000, "time.Second"), (1000000, "time.Millisecond"),
   (1000, "time.Microsecond"), (1, "time.Nanosecond")]

/-- The decomposition loop of `writeDurationLiteral`: greedily take
`remaining / unit` of each unit in turn.  Division and remainder only
happen under `unit ≤ remaining` with positive units, where `Int`
division agrees with Go's truncated `int64` division.  Each part is
`(count, unit value, unit name)`. -/
def durationPartsAux : Int → List (Int × String) → List (Int × Int × String)
  | _, [] => []
  | remaining, (u, name) :: rest =>
    if u ≤ remaining then
      let count := remaining / u
      if 0 < count then (count, u, name) :: durationPartsAux (remaining % u) rest
      else durationPartsAux remaining rest
    else durationPartsAux remaining rest

def durationParts (d : Int) : List (Int × Int × String) :=
  durationPartsAux d durationUnits

/-- Nanosecond value denoted by a rendered part list: the sum of
`count * unit` over the parts. -/
def durationPartsValue : List (Int × Int × String) → Int
  | [] => 0
  | (count, u, _) :: rest => count * u + durationPartsValue rest

/-- Model of `strings.Join`. -/
def joinSep (sep : String) : List String → String
  | [] => ""
  | [x] => x
  | x :: rest => x ++ sep ++ joinSep sep rest

def renderDurationParts (parts : List (Int × Int × String)) : String :=
  joinSep " + " (parts.map (fun p => Int.repr p.1 ++ "*" ++ p.2.2))

/-- Embedding of `writeDurationLiteral` in value_writer.go. -/
def writeDurationLiteral (s : String) : String :=
  match parseDuration s with
  | .error _ => "time.Duration(0) /* invalid: " ++ s ++ " */"
  | .ok d =>
    if d = 0 then "0"
    else
      match durationParts d with
      | [] => "0"
      | parts => joinSep " + " (parts.map (fun p => Int.repr p.1 ++ "*" ++ p.2.2))

/-! ## Byte-array literals (value_writer.go `writeByteArrayLiteral`) -/

def hexDigitCh (n : Nat) : Char :=
  if n < 10 then Char.ofNat (48 + n) else Char.ofNat (87 + n)

/-- The `"0x%02x"` rendering of one byte (bytes are `Fin 256`, as Go's
`byte` always satisfies `b < 256`). -/
def hexByteChars (b : Fin 256) : List Char :=
  ['0', 'x', hexDigitCh (b.val / 16), hexDigitCh (b.val % 16)]

def tabChars (n : Nat) : List Char := List.replicate n '\t'

/-- The per-byte loop of `writeByteArrayLiteral`: indent at the start of
each 12-byte row, the hex byte, a `", "` separator for every byte but the
last, and a newline after each full row that is not the final one. -/
def byteBodyChars (ind : List Char) : Nat → List (Fin 256) → List Char
  | _, [] => []
  | i, b :: rest =>
    (if i % 12 = 0 then ind else []) ++ hexByteChars b
      ++ (if rest ≠ [] then [',', ' '] else [])
      ++ (if i % 12 = 11 ∧ rest ≠ [] then ['\n'] else [])
      ++ byteBodyChars ind (i + 1) rest

/-- Embedding of `writeByteArrayLiteral` in value_writer.go, at the level
of the emitted character sequence. -/
def writeByteArrayChars (data : List (Fin 256)) (indent : Nat) : List Char :=
  if data = [] then "[]byte\x7b\x7d".data
  else
    "[]byte\x7b\n".data ++ byteBodyChars (tabChars (indent + 1)) 0 data
      ++ ",\n".data ++ tabChars indent ++ "\x7d".data

def writeByteArrayLiteral (data : List (Fin 256)) (indent : Nat) : String :=
  ⟨writeByteArrayChars data indent⟩

/-! ## Decoding byte-array literals
An executable decoder for the emitted literal: scan for `0x` followed by
two lowercase hex digits and collect the byte values.  Within the
grammar emitted by `writeByteArrayChars` every byte appears as such a
token and no other `'0'` character occurs, so the scan recovers exactly
the embedded byte sequence. -/

def isHexCh (c : Char) : Bool :=
  (decide ('0' ≤ c) && decide (c ≤ '9')) || (decide ('a' ≤ c) && decide (c ≤ 'f'))

def hexChVal (c : Char) : Nat :=
  if c ≤ '9' then c.toNat - 48 else c.toNat - 87

def scanHexBytes : List Char → List Nat
  | '0' :: 'x' :: c1 :: c2 :: rest =>
    (if isHexCh c1 && isHexCh c2 then [hexChVal c1 * 16 + hexChVal c2] else [])
      ++ scanHexBytes rest
  | _ :: rest => scanHexBytes rest
  | [] => []

/-! ## Name derivation helpers -/

/-- Model of the external dependency `sx.PascalCase`: split on `_`/`-`
and capitalize the first letter of each part (spec §3: "the PascalCase
field key").  The verified properties do not depend on its exact
behaviour, only on it being a fixed pure function. -/
def splitSepChars : List Char → List (List Char)
  | [] => [[]]
  | c :: cs =>
    if c = '_' ∨ c = '-' then [] :: splitSepChars cs
    else
      match splitSepChars cs with
      | [] => [[c]]
      | p :: ps => (c :: p) :: ps

def capitalizePart : List Char → List Char
  | [] => []
  | c :: cs => c.toUpper :: cs

def pascalCase (s : String) : String :=
  ⟨((splitSepChars s.data).map capitalizePart).flatten⟩

/-- Model of the external dependency `sx.SnakeCase`: lower-case, with an
underscore inserted before each interior upper-case letter. -/
def snakeCaseChars : List Char → Bool → List Char
  | [], _ => []
  | c :: cs, isFirst =>
    (if c.isUpper ∧ isFirst = false then ['_', c.toLower] else [c.toLower])
      ++ snakeCaseChars cs false

def snakeCase (s : String) : String := ⟨snakeCaseChars s.data true⟩

/-- Modelled from the spec: the generator helper `stripSuffix`, whose
definition is not among the available sources (only its call sites in
struct_gen.go are).  Spec §3: the parent type name is "stripped of its
kind suffix" — `Config` for tables, `Item` for array-of-table elements —
before the child segment is appended. -/
def stripSuffix (name : String) : String :=
  if strEndsWith name ("Config") then goTrimSfx name ("Config")
  else goTrimSfx name ("Item")

/-- Model of `sort.Strings` by insertion sort (byte-wise lexicographic
order on the ASCII names produced by the generator). -/
def insertString (x : String) : List String → List String
  | [] => [x]
  | y :: ys => if x < y then x :: y :: ys else y :: insertString x ys

def sortStrings : List String → List String
  | [] => []
  | x :: xs => insertString x (sortStrings xs)

/-- Sorting a table's entries by key models Go's
`sort.Strings(keys)` followed by indexed access `data[key]`. -/
def insertEntry (k : String) (v : GoVal) : GoEntries → GoEntries
  | .nil => .cons k v .nil
  | .cons k2 v2 rest =>
    if k < k2 then .cons k v (.cons k2 v2 rest) else .cons k2 v2 (insertEntry k v rest)

def sortEntries : GoEntries → GoEntries
  | .nil => .nil
  | .cons k v rest => insertEntry k v (sortEntries rest)

def keysOfEntries : GoEntries → List String
  | .nil => []
  | .cons k _ rest => k :: keysOfEntries rest

/-! ## File references (file_handler.go) -/

/-- Result of `os.Stat` plus `os.ReadFile` on one path: the metadata size
(checked before reading) and the read outcome.  `none` at the `FileSys`
level models a path that does not exist. -/
structure FsEntry where
  size : Int
  read : Except String (List (Fin 256))

abbrev FileSys := String → Option FsEntry

/-- The generator state relevant to emission: the file system, the input
directory for `file:` resolution and the embedded-file size ceiling. -/
structure Gen where
  fs : FileSys
  inputDir : String
  maxFileSize : Int

/-- Embedding of `isFileReference` in file_handler.go. -/
def isFileReference (s : String) : Bool :=
  strBeginsWith s ("file:")

/-- Embedding of `loadFileContent` in file_handler.go: strip the `file:`
tag, resolve against the input directory, fail for a missing file, a file
whose metadata size exceeds the ceiling, or a failing read. -/
def loadFileContent (g : Gen) (filePath : String) : Except String (List (Fin 256)) :=
  let relativePath := goTrimPfx filePath ("file:")
  let resolved := if g.inputDir = "" then relativePath else g.inputDir ++ "/" ++ relativePath
  match g.fs resolved with
  | none => .error ("file not found: " ++ resolved ++ " (referenced in config)")
  | some ent =>
    if g.maxFileSize > 0 ∧ ent.size > g.maxFileSize then
      .error ("file " ++ resolved ++ " exceeds max size " ++ Int.repr g.maxFileSize
        ++ " bytes (actual: " ++ Int.repr ent.size ++ " bytes)")
    else
      match ent.read with
      | .error e => .error ("failed to read file " ++ resolved ++ ": " ++ e)
      | .ok content => .ok content

mutual
/-- Embedding of `validateFileReferences` in file_handler.go: the
pre-emission pass that loads every `file:` reference in the tree so that
generation fails before any output is produced. -/
def validateFileReferences (g : Gen) : GoEntries → Except String Unit
  | .nil => .ok ()
  | .cons _ v rest =>
    match validateValue g v with
    | .error e => .error e
    | .ok _ => validateFileReferences g rest
def validateValue (g : Gen) : GoVal → Except String Unit
  | .str s =>
    if isFileReference s then
      match loadFileContent g s with
      | .error e => .error e
      | .ok _ => .ok ()
    else .ok ()
  | .table m => validateFileReferences g m
  | .arr xs => validateValueList g xs
  | .arrTables ts => validateTableList g ts
  | _ => .ok ()
def validateValueList (g : Gen) : GoValList → Except String Unit
  | .nil => .ok ()
  | .cons x rest =>
    match validateValue g x with
    | .error e => .error e
    | .ok _ => validateValueList g rest
def validateTableList (g : Gen) : GoTableList → Except String Unit
  | .nil => .ok ()
  | .cons m rest =>
    match validateFileReferences g m with
    | .error e => .error e
    | .ok _ => validateTableList g rest
end

/-! ## Type classification (value_writer.go `toGoType`) -/

/-- Embedding of `toGoType`: classification of a dynamic value to its Go
type string.  The file-reference check precedes the duration check, which
precedes plain string; `struct`/`[]struct` are the placeholders the
callers replace with path-derived type names; the `default` branch of the
Go type switch yields `any`. -/
def toGoType : GoVal → String
  | .str s =>
    if isFileReference s then "[]byte"
    else if isDurationString s then "time.Duration"
    else "string"
  | .int _ => "int64"
  | .float _ => "float64"
  | .bool _ => "bool"
  | .arr .nil => "[]any"
  | .arr (.cons x _) => "[]" ++ toGoType x
  | .arrTables _ => "[]struct"
  | .table _ => "struct"
  | .other _ => "any"

/-! ## Value literals (value_writer.go `writeValue`) -/

mutual
/-- Embedding of `writeValueWithIndent`: the Go literal for one value.
File references embed the loaded bytes (validation has already run, so
the error branch mirrors the Go comment-fallback), duration strings
become duration literals, other strings are quoted; maps and
`[]map[string]any` fall into the `default` branch emitting `nil`. -/
def writeValueWithIndent (g : Gen) : GoVal → Nat → String
  | .str s, indent =>
    if isFileReference s then
      match loadFileContent g s with
      | .error e => "[]byte\x7b\x7d /* unexpected error: " ++ e ++ " */"
      | .ok content => writeByteArrayLiteral content indent
    else if isDurationString s then writeDurationLiteral s
    else goQuote s
  | .int n, _ => Int.repr n
  | .float r, _ => r
  | .bool b, _ => if b then "true" else "false"
  | .arr xs, _ => writeArray g xs
  | _, _ => "nil"
/-- Embedding of `writeArray`: empty arrays emit `nil`; the element type
comes from the first element. -/
def writeArray (g : Gen) : GoValList → String
  | .nil => "nil"
  | .cons x rest =>
    "[]" ++ toGoType x ++ "\x7b" ++ writeValueWithIndent g x 0
      ++ writeArrayRest g rest ++ "\x7d"
def writeArrayRest (g : Gen) : GoValList → String
  | .nil => ""
  | .cons y rest => ", " ++ writeValueWithIndent g y 0 ++ writeArrayRest g rest
end

def writeValue (g : Gen) (v : GoVal) : String :=
  writeValueWithIndent g v 0

/-! ## Struct collection (struct_gen.go `collectNestedStructs`)
The catalog accumulator is an association list in insertion order (Go
builds a map and sorts the names afterwards, so only the name set
matters).  `collectFields` is the entry loop of `collectNestedStructs`
with the check-then-insert step of the recursive call inlined, which
makes the whole recursion structural. -/

def containsName (structs : List (String × GoEntries)) (n : String) : Bool :=
  match structs with
  | [] => false
  | (k, _) :: rest => k = n || containsName rest n

def lookupStruct : List (String × GoEntries) → String → Option GoEntries
  | [], _ => none
  | (k, m) :: rest, n => if k = n then some m else lookupStruct rest n

/-- Embedding of the body of `collectNestedStructs`: walk the fields of a
table already entered in the catalog under `name`; nested tables extend
the catalog under `strippedParent ++ PascalCase key ++ "Config"`; arrays
whose first element is a table use the first element only, under the
`"Item"` suffix; a name already present is skipped together with its
whole subtree (dedup is by name, first occurrence wins). -/
def collectFields (structs : List (String × GoEntries)) (name : String) :
    GoEntries → List (String × GoEntries)
  | .nil => structs
  | .cons key v rest =>
    let s1 :=
      match v with
      | .table m =>
        let n := stripSuffix name ++ pascalCase key ++ "Config"
        if containsName structs n then structs else collectFields (structs ++ [(n, m)]) n m
      | .arr (.cons (.table m) _) =>
        let n := stripSuffix name ++ pascalCase key ++ "Item"
        if containsName structs n then structs else collectFields (structs ++ [(n, m)]) n m
      | .arrTables (.cons m _) =>
        let n := stripSuffix name ++ pascalCase key ++ "Item"
        if containsName structs n then structs else collectFields (structs ++ [(n, m)]) n m
      | _ => structs
    collectFields s1 name rest

/-- Embedding of `collectNestedStructs` itself: enter the table under its
name unless the name is already taken, then walk its fields. -/
def collectNestedStructs (structs : List (String × GoEntries)) (name : String)
    (data : GoEntries) : List (String × GoEntries) :=
  if containsName structs name then structs
  else collectFields (structs ++ [(name, data)]) name data

/-- Phase 1 of `generateStructsAndVars`: over the sorted top-level keys,
collect tables under `PascalCase key ++ "Config"` and nonempty
`[]map[string]any` values under `PascalCase key ++ "Item"` (top-level
`[]any` values are not collected here). -/
def collectTopAux (data : GoEntries) (acc : List (String × GoEntries)) :
    List String → List (String × GoEntries)
  | [] => acc
  | k :: rest =>
    let acc' :=
      match lookupEntry data k with
      | some (.table m) => collectNestedStructs acc (pascalCase k ++ "Config") m
      | some (.arrTables (.cons m _)) => collectNestedStructs acc (pascalCase k ++ "Item") m
      | _ => acc
    collectTopAux data acc' rest

def collectTop (data : GoEntries) : List (String × GoEntries) :=
  collectTopAux data [] (sortStrings (keysOfEntries data))

/-- The lexicographically sorted list of generated type names — the
deterministic iteration order of phase 2 of `generateStructsAndVars`. -/
def typeNamesSorted (data : GoEntries) : List String :=
  sortStrings ((collectTop data).map Prod.fst)

/-! ## Struct type definitions (struct_gen.go `generateStruct`) -/

/-- The field type written by `generateStruct`: `toGoType`, overridden
with path-derived names for nested tables and for nonempty arrays of
tables. -/
def structFieldGoType (structName fieldName : String) (value : GoVal) : String :=
  match value with
  | .table _ => stripSuffix structName ++ pascalCase fieldName ++ "Config"
  | .arr (.cons (.table _) _) =>
    "[]" ++ stripSuffix structName ++ pascalCase fieldName ++ "Item"
  | .arrTables (.cons _ _) =>
    "[]" ++ stripSuffix structName ++ pascalCase fieldName ++ "Item"
  | v => toGoType v

def structFieldsText (structName : String) : GoEntries → String
  | .nil => ""
  | .cons k v rest =>
    "\t" ++ pascalCase k ++ " " ++ structFieldGoType structName k v ++ "\n"
      ++ structFieldsText structName rest

/-- Embedding of `generateStruct`: the type definition text, fields in
sorted order. -/
def generateStruct (structName : String) (fields : GoEntries) : String :=
  "type " ++ structName ++ " struct \x7b\n"
    ++ structFieldsText structName (sortEntries fields) ++ "\x7d"

/-! ## Struct initializers (struct_gen.go `generateStructInit`) -/

def tabsStr (n : Nat) : String := ⟨tabChars n⟩

/-- Inline field list of `writeArrayOfStructs` elements: sorted fields as
`Name: value` joined by `", "`. -/
def inlineStructFields (g : Gen) : GoEntries → String
  | .nil => ""
  | .cons k v .nil => pascalCase k ++ ": " ++ writeValueWithIndent g v 0
  | .cons k v rest =>
    pascalCase k ++ ": " ++ writeValueWithIndent g v 0 ++ ", " ++ inlineStructFields g rest

def arrayOfStructsElemsL (g : Gen) (indentStr : String) : GoValList → String
  | .nil => ""
  | .cons (.table m) rest =>
    indentStr ++ "\x7b" ++ inlineStructFields g (sortEntries m) ++ "\x7d,\n"
      ++ arrayOfStructsElemsL g indentStr rest
  | .cons _ rest => arrayOfStructsElemsL g indentStr rest

def arrayOfStructsElemsT (g : Gen) (indentStr : String) : GoTableList → String
  | .nil => ""
  | .cons m rest =>
    indentStr ++ "\x7b" ++ inlineStructFields g (sortEntries m) ++ "\x7d,\n"
      ++ arrayOfStructsElemsT g indentStr rest

/-- Embedding of `writeArrayOfStructs`: compact inline element literals;
non-table elements of a `[]any` are skipped, as in the Go type assertion. -/
def writeArrayOfStructs (g : Gen) (arr : GoVal) (indent : Nat) : String :=
  "\x7b\n"
    ++ (match arr with
        | .arr xs => arrayOfStructsElemsL g (tabsStr (indent + 1)) xs
        | .arrTables ts => arrayOfStructsElemsT g (tabsStr (indent + 1)) ts
        | _ => "")
    ++ tabsStr indent ++ "\x7d"

mutual
/-- Size measures for the value tree, used as termination measures for
the initializer emission (which iterates tables in sorted order, so the
recursion is not structural). -/
def sizeV : GoVal → Nat
  | .table m => sizeE m + 1
  | .arr xs => sizeL xs + 1
  | .arrTables ts => sizeT ts + 1
  | _ => 1
def sizeL : GoValList → Nat
  | .nil => 1
  | .cons x r => sizeV x + sizeL r + 1
def sizeE : GoEntries → Nat
  | .nil => 1
  | .cons _ v r => sizeV v + sizeE r + 1
def sizeT : GoTableList → Nat
  | .nil => 1
  | .cons m r => sizeE m + sizeT r + 1
end

theorem sizeE_insertEntry (k : String) (v : GoVal) :
    (e : GoEntries) → sizeE (insertEntry k v e) = sizeV v + sizeE e + 1
  | .nil => by simp [insertEntry, sizeE]
  | .cons k2 v2 rest => by
    simp only [insertEntry]
    split
    · simp [sizeE]
    · simp [sizeE, sizeE_insertEntry k v rest]; omega

theorem sizeE_sortEntries : (e : GoEntries) → sizeE (sortEntries e) = sizeE e
  | .nil => by simp [sortEntries]
  | .cons k v rest => by
    simp [sortEntries, sizeE_insertEntry, sizeE, sizeE_sortEntries rest]

mutual
/-- Embedding of `generateStructInit`: brace-wrapped, sorted fields with
one level more indentation. -/
def generateStructInit (g : Gen) (parentStructName : String) (data : GoEntries)
    (indent : Nat) : String :=
  "\x7b\n" ++ structInitFields g parentStructName (sortEntries data) indent
    ++ tabsStr indent ++ "\x7d"
termination_by 2 * sizeE data + 1
decreasing_by simp [sizeE_sortEntries]
/-- The per-field loop of `generateStructInit`: nested tables recurse with
the path-derived type name; arrays of tables use the compact inline form;
everything else is a plain value literal. -/
def structInitFields (g : Gen) (parentStructName : String) :
    GoEntries → Nat → String
  | .nil, _ => ""
  | .cons key v rest, indent =>
    let fieldTxt :=
      match v with
      | .table m =>
        let structType := stripSuffix parentStructName ++ pascalCase key ++ "Config"
        structType ++ generateStructInit g structType m (indent + 1)
      | .arr (.cons (.table m0) xs) =>
        writeArrayOfStructs g (.arr (.cons (.table m0) xs)) (indent + 1)
      | .arr xs => writeValueWithIndent g (.arr xs) (indent + 1)
      | .arrTables ts => writeArrayOfStructs g (.arrTables ts) (indent + 1)
      | w => writeValueWithIndent g w (indent + 1)
    tabsStr (indent + 1) ++ pascalCase key ++ ": " ++ fieldTxt ++ ",\n"
      ++ structInitFields g parentStructName rest indent
termination_by e _ => 2 * sizeE e
decreasing_by all_goals (simp [sizeE, sizeV]; omega)
end

/-- Embedding of `writeArrayOfTablesInit` for `[]any` input: only table
elements are emitted, each via `generateStructInit`. -/
def arrayOfTablesElemsL (g : Gen) (structName indentStr : String) (indent : Nat) :
    GoValList → String
  | .nil => ""
  | .cons (.table m) rest =>
    indentStr ++ generateStructInit g structName m (indent + 1) ++ ",\n"
      ++ arrayOfTablesElemsL g structName indentStr indent rest
  | .cons _ rest => arrayOfTablesElemsL g structName indentStr indent rest

def arrayOfTablesElemsT (g : Gen) (structName indentStr : String) (indent : Nat) :
    GoTableList → String
  | .nil => ""
  | .cons m rest =>
    indentStr ++ generateStructInit g structName m (indent + 1) ++ ",\n"
      ++ arrayOfTablesElemsT g structName indentStr indent rest

def writeArrayOfTablesInit (g : Gen) (structName : String) (arr : GoVal)
    (indent : Nat) : String :=
  "\x7b\n"
    ++ (match arr with
        | .arr xs => arrayOfTablesElemsL g structName (tabsStr (indent + 1)) indent xs
        | .arrTables ts => arrayOfTablesElemsT g structName (tabsStr (indent + 1)) indent ts
        | _ => "")
    ++ tabsStr indent ++ "\x7d"

/-! ## Static-mode orchestration (struct_gen.go `generateStructsAndVars`) -/

def structsText (structs : List (String × GoEntries)) : List String → String
  | [] => ""
  | n :: rest =>
    (match lookupStruct structs n with
     | some fields => generateStruct n fields ++ "\n\n"
     | none => "")
      ++ structsText structs rest

/-- The `var (...)` block entries of `generateStructsAndVars`, one per
sorted top-level key. -/
def varBlockEntries (g : Gen) (data : GoEntries) : List String → String
  | [] => ""
  | k :: rest =>
    let varName := pascalCase k
    let line :=
      match lookupEntry data k with
      | some (.table m) =>
        let structName := pascalCase k ++ "Config"
        "\t" ++ varName ++ " = " ++ structName ++ generateStructInit g structName m 0 ++ "\n"
      | some (.arrTables ts) =>
        match ts with
        | .cons _ _ =>
          let structName := pascalCase k ++ "Item"
          "\t" ++ varName ++ " = []" ++ structName
            ++ writeArrayOfTablesInit g structName (.arrTables ts) 0 ++ "\n"
        | .nil => "\t" ++ varName ++ " []" ++ pascalCase k ++ "Item\n"
      | some (.arr xs) =>
        match xs with
        | .cons (.table m0) xs' =>
          let structName := pascalCase k ++ "Item"
          "\t" ++ varName ++ " = []" ++ structName
            ++ writeArrayOfTablesInit g structName (.arr (.cons (.table m0) xs')) 0 ++ "\n"
        | .cons x xs' =>
          "\t" ++ varName ++ " " ++ toGoType (.arr (.cons x xs')) ++ " = "
            ++ writeValueWithIndent g (.arr (.cons x xs')) 0 ++ "\n"
        | .nil => "\t" ++ varName ++ " " ++ toGoType (.arr .nil) ++ "\n"
      | some w =>
        "\t" ++ varName ++ " " ++ toGoType w ++ " = " ++ writeValueWithIndent g w 0 ++ "\n"
      | none => ""
    line ++ varBlockEntries g data rest

/-- Embedding of `generateStructsAndVars`: collected struct definitions in
sorted name order, then the initialized `var` block over sorted top-level
keys. -/
def generateStructsAndVars (g : Gen) (data : GoEntries) : String :=
  let keys := sortStrings (keysOfEntries data)
  let allStructs := collectTopAux data [] keys
  structsText allStructs (sortStrings (allStructs.map Prod.fst))
    ++ "var (\n" ++ varBlockEntries g data keys ++ ")\n"

/-! ## Getter-mode emission (struct_gen.go `generateStructsAndGetters`) -/

/-- Embedding of `envVarName`: `CONFIG_` plus the upper snake-case
section (kind suffixes stripped) plus the upper-cased field name. -/
def envVarName (structName fieldName : String) : String :=
  let sec := goTrimSfx (goTrimSfx (stripSuffix structName) ("Config")) ("Item")
  "CONFIG_" ++ goUpper (snakeCase sec) ++ "_" ++ goUpper fieldName

/-- The env-var key used by the getter loop for one field: `envVarName`
at the top of a struct chain, the extended prefix inside one. -/
def getterEnvKey (structName envPfx fieldName : String) : String :=
  if envPfx = "" then envVarName structName fieldName
  else envPfx ++ "_" ++ goUpper fieldName

/-- Embedding of `generateGetterMethod`: a single accessor with an
environment-variable check.  `[]byte` fields treat the variable as a file
path; string/int64/float64/bool/duration fields parse it (falling back to
the embedded default on failure); array types only get a comment inside
the check and fall through to the default. -/
def generateGetterMethod (g : Gen) (structName fieldName goType envKey : String)
    (defaultValue : GoVal) : String :=
  let header := "func (" ++ structName ++ ") " ++ fieldName ++ "() " ++ goType ++ " \x7b\n"
  if goType = "[]byte" then
    header
      ++ "\t// Check for file path to load\n"
      ++ "\tif path := os.Getenv(" ++ goQuote envKey ++ "); path != \"\" \x7b\n"
      ++ "\t\tif data, err := os.ReadFile(path); err == nil \x7b\n"
      ++ "\t\t\treturn data\n"
      ++ "\t\t\x7d\n"
      ++ "\t\x7d\n"
      ++ "\treturn " ++ writeValueWithIndent g defaultValue 0 ++ "\n"
      ++ "\x7d\n\n"
  else
    let parseBranch :=
      if goType = "string" then "\t\treturn v\n"
      else if goType = "int64" then
        "\t\tif i, err := strconv.ParseInt(v, 10, 64); err == nil \x7b\n\t\t\treturn i\n\t\t\x7d\n"
      else if goType = "float64" then
        "\t\tif f, err := strconv.ParseFloat(v, 64); err == nil \x7b\n\t\t\treturn f\n\t\t\x7d\n"
      else if goType = "bool" then
        "\t\tif b, err := strconv.ParseBool(v); err == nil \x7b\n\t\t\treturn b\n\t\t\x7d\n"
      else if goType = "time.Duration" then
        "\t\tif d, err := time.ParseDuration(v); err == nil \x7b\n\t\t\treturn d\n\t\t\x7d\n"
      else if strBeginsWith goType ("[]") then
        "\t\t// Array overrides not supported via env vars\n"
      else ""
    header
      ++ "\tif v := os.Getenv(" ++ goQuote envKey ++ "); v != \"\" \x7b\n"
      ++ parseBranch
      ++ "\t\x7d\n"
      ++ "\treturn " ++ writeValueWithIndent g defaultValue 0 ++ "\n"
      ++ "\x7d\n\n"

/-- The fixed accessor emitted for an array-of-tables field: no override
path, `return nil`. -/
def getterArrayOfStructsText (structName goFieldName nestedStructName : String) : String :=
  "func (" ++ structName ++ ") " ++ goFieldName ++ "() []" ++ nestedStructName ++ " \x7b\n"
    ++ "\t// Arrays of structs cannot be overridden via env vars\n"
    ++ "\treturn nil\n"
    ++ "\x7d\n\n"

mutual
/-- Embedding of `generateGetterMethods`: skip an already generated
struct, otherwise walk its sorted fields. -/
def getterMethods (g : Gen) (structName : String) (fields : GoEntries)
    (envPfx : String) (generated : List String) : String × List String :=
  if generated.contains structName then ("", generated)
  else getterFields g structName (sortEntries fields) envPfx (generated ++ [structName])
termination_by 2 * sizeE fields + 1
decreasing_by simp [sizeE_sortEntries]
/-- The per-field loop of `generateGetterMethods`: nested tables get a
zero-value accessor plus their own methods (with the extended env
prefix); arrays whose first element is a table get the fixed
`return nil` accessor; everything else goes through
`generateGetterMethod`. -/
def getterFields (g : Gen) (structName : String) :
    GoEntries → String → List String → String × List String
  | .nil, _, generated => ("", generated)
  | .cons fieldName v rest, envPfx, generated =>
    let goFieldName := pascalCase fieldName
    let envKey := getterEnvKey structName envPfx fieldName
    match v with
    | .table m =>
      let nested := stripSuffix structName ++ pascalCase fieldName ++ "Config"
      let txt :=
        "func (" ++ structName ++ ") " ++ goFieldName ++ "() " ++ nested ++ " \x7b\n"
          ++ "\treturn " ++ nested ++ "\x7b\x7d\n"
          ++ "\x7d\n\n"
      match getterMethods g nested m envKey generated with
      | (sub, gen1) =>
        match getterFields g structName rest envPfx gen1 with
        | (restTxt, gen2) => (txt ++ sub ++ restTxt, gen2)
    | .arr (.cons (.table _) _) =>
      let nested := stripSuffix structName ++ pascalCase fieldName ++ "Item"
      match getterFields g structName rest envPfx generated with
      | (restTxt, gen1) =>
        (getterArrayOfStructsText structName goFieldName nested ++ restTxt, gen1)
    | .arrTables (.cons _ _) =>
      let nested := stripSuffix structName ++ pascalCase fieldName ++ "Item"
      match getterFields g structName rest envPfx generated with
      | (restTxt, gen1) =>
        (getterArrayOfStructsText structName goFieldName nested ++ restTxt, gen1)
    | w =>
      match getterFields g structName rest envPfx generated with
      | (restTxt, gen1) =>
        (generateGetterMethod g structName goFieldName (toGoType w) envKey w ++ restTxt, gen1)
termination_by e _ _ => 2 * sizeE e
decreasing_by all_goals (simp [sizeE, sizeV]; omega)
end

def emptyStructTypes : List String → String
  | [] => ""
  | n :: rest => "type " ++ n ++ " struct\x7b\x7d\n\n" ++ emptyStructTypes rest

def getterAllMethods (g : Gen) (structs : List (String × GoEntries))
    (generated : List String) : List String → String
  | [] => ""
  | n :: rest =>
    match lookupStruct structs n with
    | some fields =>
      match getterMethods g n fields "" generated with
      | (txt, gen1) => txt ++ getterAllMethods g structs gen1 rest
    | none => getterAllMethods g structs generated rest

/-- The zero-initialized `var` block of getter mode. -/
def getterVarBlock (data : GoEntries) : List String → String
  | [] => ""
  | k :: rest =>
    let varName := pascalCase k
    let line :=
      match lookupEntry data k with
      | some (.table _) => "\t" ++ varName ++ " " ++ (pascalCase k ++ "Config") ++ "\n"
      | some (.arrTables _) => "\t" ++ varName ++ " []" ++ (pascalCase k ++ "Item") ++ "\n"
      | some w => "\t" ++ varName ++ " " ++ toGoType w ++ "\n"
      | none => ""
    line ++ getterVarBlock data rest

/-- Embedding of `generateStructsAndGetters`.  The collection phase reuses
`collectFields`/`collectNestedStructs`: `collectNestedStructsForGetters`
in the source has the same body as `collectNestedStructs`. -/
def generateStructsAndGetters (g : Gen) (data : GoEntries) : String :=
  let keys := sortStrings (keysOfEntries data)
  let allStructs := collectTopAux data [] keys
  let structNames := sortStrings (allStructs.map Prod.fst)
  emptyStructTypes structNames
    ++ getterAllMethods g allStructs [] structNames
    ++ "var (\n" ++ getterVarBlock data keys ++ ")\n"

/-! ## The generation pipeline and its world state -/

/-- Modelled from the spec: the `Generator.Generate` pipeline method is
not among the available sources (only its callers and its component
passes are).  Per spec §4.2/§7 — and the value_writer.go comment "File
was already validated in validateFileReferences" — the file-reference
validation pre-pass runs before any emission, and emission is selected by
mode (§4.5).  The package/import header is not modelled. -/
def generatePipeline (g : Gen) (mode : String) (data : GoEntries) : Except String String :=
  match validateFileReferences g data with
  | .error e => .error e
  | .ok _ =>
    .ok (if mode = "getter" then generateStructsAndGetters g data
         else generateStructsAndVars g data)

structure GenOptions where
  outputFile : String
  enableEnv : Bool
  mode : String
  maxFileSize : Int
  inputDir : String

/-- The world `GenerateFromFile` acts on: the combined result of
`os.ReadFile` + `toml.Unmarshal` on the input (TOML parsing is external,
spec §1), the process environment, the file system for `file:`
references, and the current content of the output file (`none` when it
does not exist). -/
structure GenWorld where
  parseResult : Except String GoEntries
  env : EnvMap
  fs : FileSys
  output : Option String

/-- Embedding of `GenerateFromFile` (cfgx.go): validate options, parse,
apply environment overrides when enabled (the re-encode/re-parse round
trip through the external TOML codec is modelled as the identity), run
the generation pipeline, and only on success write the output file.
Every failure returns an error with the world — in particular the output
file — unchanged. -/
def genOf (opts : GenOptions) (w : GenWorld) : Gen :=
  { fs := w.fs, inputDir := opts.inputDir,
    maxFileSize := if opts.maxFileSize = 0 then 1048576 else opts.maxFileSize }

def modeOf (opts : GenOptions) : String :=
  if opts.mode = "" then "static" else opts.mode

def generateFromFile (opts : GenOptions) (w : GenWorld) : Except String Unit × GenWorld :=
  if opts.outputFile = "" then (.error "output file is required", w)
  else
    match w.parseResult with
    | .error e => (.error ("failed to parse TOML: " ++ e), w)
    | .ok configData =>
      let resolved : Except String GoEntries :=
        if opts.enableEnv then apply w.env configData else .ok configData
      match resolved with
      | .error e => (.error ("failed to apply environment overrides: " ++ e), w)
      | .ok data2 =>
        match generatePipeline (genOf opts w) (modeOf opts) data2 with
        | .error e => (.error ("failed to generate code: " ++ e), w)
        | .ok code => (.ok (), { w with output := some code })

/-! ## The watch loop (cmd/cfgx/watch.go)
Discrete-event model of the debounce logic in `watchCmd.RunE`.  The loop
holds at most one armed `time.AfterFunc` timer under `timerMu`; a
write/create event stops the pending timer (if any) and arms a fresh one
`debounce` later.  Events are processed at their timestamps (prompt
delivery); a pending timer whose deadline has passed fires before the
next event is handled, and a run launched at time `t` regenerates from
the file content current at `t`. -/

/-- File content as of time `t`: the content of the last write at or
before `t` (events in chronological order). -/
def lastWriteContent (events : List (Nat × String)) (t : Nat) : Option String :=
  match events with
  | [] => none
  | (te, c) :: rest =>
    if te ≤ t then
      match lastWriteContent rest t with
      | some c2 => some c2
      | none => some c
    else none

/-- The debounce state machine: `pending` is the deadline of the armed
timer.  Handling a write event at `te` first lets a timer whose deadline
is `≤ te` fire, then stops any remaining timer and arms `te + d`; after
the last event the surviving timer fires. -/
def debounceSim (d : Nat) : Option Nat → List (Nat × String) → List Nat
  | pending, [] =>
    match pending with
    | some f => [f]
    | none => []
  | pending, (te, _) :: rest =>
    match pending with
    | some f =>
      if f ≤ te then f :: debounceSim d (some (te + d)) rest
      else debounceSim d (some (te + d)) rest
    | none => debounceSim d (some (te + d)) rest

/-- The regeneration runs produced by a chronological event list: each
fire time paired with the input content the run observes. -/
def watchRuns (d : Nat) (events : List (Nat × String)) : List (Nat × Option String) :=
  (debounceSim d none events).map (fun f => (f, lastWriteContent events f))

/-! ## Path lemmas for override resolution -/

def containsKey : GoEntries → String → Bool
  | .nil, _ => false
  | .cons k _ rest, key => k = key || containsKey rest key

mutual
/-- Key uniqueness along the table spine of the tree (Go maps cannot hold
duplicate keys; association lists can, so theorems that identify entries
by path assume it). -/
def deepUniq : GoEntries → Bool
  | .nil => true
  | .cons k v rest => !containsKey rest k && valUniq v && deepUniq rest
def valUniq : GoVal → Bool
  | .table m => deepUniq m
  | _ => true
end

theorem lookupEntry_containsKey :
    (t : GoEntries) → ∀ (k : String) (v : GoVal),
      lookupEntry t k = some v → containsKey t k = true
  | .nil => by intro k v h; simp [lookupEntry] at h
  | .cons k2 v2 rest => by
    intro k v h
    simp only [lookupEntry] at h
    simp only [containsKey, Bool.or_eq_true, decide_eq_true_eq]
    by_cases hk : k2 = k
    · exact Or.inl hk
    · exact Or.inr (lookupEntry_containsKey rest k v (by simpa [hk] using h))

/-- Entry-wise effect of `applyNested` on a successful run: the entry
found under `k` is the head transform of the original entry under `k`. -/
theorem applyNested_lookup (env : EnvMap) (pfx : String) :
    (t : GoEntries) → ∀ (out : GoEntries) (k : String) (v : GoVal),
      applyNested env pfx t = .ok out → lookupEntry t k = some v →
      ∃ v', applyNestedHead env (pfx ++ "_" ++ goUpper k) v = .ok v' ∧
        lookupEntry out k = some v'
  | .nil => by intro out k v h hl; simp [lookupEntry] at hl
  | .cons k2 v2 rest => by
    intro out k v h hl
    simp only [applyNested] at h
    cases hh : applyNestedHead env (pfx ++ "_" ++ goUpper k2) v2 with
    | error e => rw [hh] at h; exact absurd h (by simp)
    | ok v2' =>
      rw [hh] at h
      cases hr : applyNested env pfx rest with
      | error e => rw [hr] at h; exact absurd h (by simp)
      | ok rest' =>
        rw [hr] at h
        simp only [Except.ok.injEq] at h
        subst h
        simp only [lookupEntry] at hl ⊢
        by_cases hk : k2 = k
        · subst hk
          simp only [if_pos rfl] at hl ⊢
          cases hl
          exact ⟨v2', hh, rfl⟩
        · simp only [if_neg hk] at hl ⊢
          exact applyNested_lookup env pfx rest rest' k v hr hl

/-- Path-wise effect of `applyNested` on a successful run. -/
theorem applyNested_path (env : EnvMap) :
    (path : List String) → ∀ (pfx : String) (t out : GoEntries) (v : GoVal),
      applyNested env pfx t = .ok out → lookupPath t path = some v →
      ∃ v', applyNestedHead env (pfx ++ "_" ++ joinUpper path) v = .ok v' ∧
        lookupPath out path = some v'
  | [] => by intro pfx t out v _ hl; simp [lookupPath] at hl
  | [k] => by
    intro pfx t out v h hl
    simp only [lookupPath] at hl
    obtain ⟨v', hh, hl'⟩ := applyNested_lookup env pfx t out k v h hl
    exact ⟨v', by simpa [joinUpper] using hh, by simpa [lookupPath] using hl'⟩
  | k :: k2 :: rest => by
    intro pfx t out v h hl
    simp only [lookupPath] at hl
    cases he : lookupEntry t k with
    | none => rw [he] at hl; simp at hl
    | some w =>
      rw [he] at hl
      cases w with
      | table m =>
        obtain ⟨u', hh, hl2⟩ := applyNested_lookup env pfx t out k (.table m) h he
        simp only [applyNestedHead] at hh
        cases hm : applyNested env (pfx ++ "_" ++ goUpper k) m with
        | error e => rw [hm] at hh; exact absurd hh (by simp)
        | ok m' =>
          rw [hm] at hh
          simp only [Except.ok.injEq] at hh
          subst hh
          obtain ⟨v', hh2, hl3⟩ :=
            applyNested_path env (k2 :: rest) (pfx ++ "_" ++ goUpper k) m m' v hm hl
          refine ⟨v', ?_, ?_⟩
          · have : pfx ++ "_" ++ joinUpper (k :: k2 :: rest)
                = pfx ++ "_" ++ goUpper k ++ "_" ++ joinUpper (k2 :: rest) := by
              simp only [joinUpper]
              simp [String.append_assoc]
            rw [this]
            exact hh2
          · simp only [lookupPath, hl2]
            exact hl3
      | str s => simp at hl
      | int n => simp at hl
      | float r => simp at hl
      | bool b => simp at hl
      | other tag => simp at hl
      | arr xs => simp at hl
      | arrTables ts => simp at hl

/-- Entry-wise effect of `Apply` on a successful run. -/
theorem applyTop_lookup (env : EnvMap) :
    (t : GoEntries) → ∀ (out : GoEntries) (k : String) (v : GoVal),
      applyTop env t = .ok out → lookupEntry t k = some v →
      ∃ v', applyTopHead env k ("CONFIG_" ++ goUpper k) v = .ok v' ∧
        lookupEntry out k = some v'
  | .nil => by intro out k v h hl; simp [lookupEntry] at hl
  | .cons k2 v2 rest => by
    intro out k v h hl
    simp only [applyTop] at h
    cases hh : applyTopHead env k2 ("CONFIG_" ++ goUpper k2) v2 with
    | error e => rw [hh] at h; exact absurd h (by simp)
    | ok v2' =>
      rw [hh] at h
      cases hr : applyTop env rest with
      | error e => rw [hr] at h; exact absurd h (by simp)
      | ok rest' =>
        rw [hr] at h
        simp only [Except.ok.injEq] at h
        subst h
        simp only [lookupEntry] at hl ⊢
        by_cases hk : k2 = k
        · subst hk
          simp only [if_pos rfl] at hl ⊢
          cases hl
          exact ⟨v2', hh, rfl⟩
        · simp only [if_neg hk] at hl ⊢
          exact applyTop_lookup env rest rest' k v hr hl

/-- Path-wise effect of `Apply` on a successful run, for paths of depth
at least two (the first segment selects a top-level section table). -/
theorem apply_path_deep (env : EnvMap) (k k2 : String) (rest : List String)
    (t out : GoEntries) (v : GoVal)
    (h : apply env t = .ok out) (hl : lookupPath t (k :: k2 :: rest) = some v) :
    ∃ v', applyNestedHead env (envKeyOf (k :: k2 :: rest)) v = .ok v' ∧
      lookupPath out (k :: k2 :: rest) = some v' := by
  simp only [lookupPath] at hl
  cases he : lookupEntry t k with
  | none => rw [he] at hl; simp at hl
  | some w =>
    rw [he] at hl
    cases w with
    | table m =>
      obtain ⟨u', hh, hl2⟩ := applyTop_lookup env t out k (.table m) h he
      simp only [applyTopHead] at hh
      cases hm : applyNested env ("CONFIG_" ++ goUpper k) m with
      | error e => rw [hm] at hh; exact absurd hh (by simp)
      | ok m' =>
        rw [hm] at hh
        simp only [Except.ok.injEq] at hh
        subst hh
        obtain ⟨v', hh2, hl3⟩ :=
          applyNested_path env (k2 :: rest) ("CONFIG_" ++ goUpper k) m m' v hm hl
        refine ⟨v', ?_, ?_⟩
        · have : envKeyOf (k :: k2 :: rest)
              = "CONFIG_" ++ goUpper k ++ "_" ++ joinUpper (k2 :: rest) := by
            simp only [envKeyOf, joinUpper]
            simp [String.append_assoc]
          rw [this]
          exact hh2
        · simp only [lookupPath, hl2]
          exact hl3
    | str s => simp at hl
    | int n => simp at hl
    | float r => simp at hl
    | bool b => simp at hl
    | other tag => simp at hl
    | arr xs => simp at hl
    | arrTables ts => simp at hl

/-! ## Error lemmas for override resolution -/

/-- The key named by an error message: `msg` contains `key` as a
substring. -/
def hasKeyIn (msg key : String) : Prop :=
  ∃ pre post, msg = pre ++ (key ++ post)

/-- An entry (addressed by path) whose override processing fails: its
loop-body transform returns an error.  Depth one uses the top-level body
of `Apply`; deeper paths use the body of `applyNested`. -/
def overrideFails (env : EnvMap) (t : GoEntries) : List String → Prop
  | [] => False
  | [k] => ∃ w, lookupEntry t k = some w ∧
      ∃ m, applyTopHead env k ("CONFIG_" ++ goUpper k) w = .error m
  | k :: k2 :: rest => ∃ w, lookupPath t (k :: k2 :: rest) = some w ∧
      ∃ m, applyNestedHead env (envKeyOf (k :: k2 :: rest)) w = .error m

theorem lookupPath_head_contains :
    (q : List String) → ∀ (e : GoEntries) (w : GoVal), lookupPath e q = some w →
      ∃ kq qr, q = kq :: qr ∧ containsKey e kq = true
  | [] => by intro e w h; simp [lookupPath] at h
  | [kq] => by
    intro e w h
    simp only [lookupPath] at h
    exact ⟨kq, [], rfl, lookupEntry_containsKey e kq w h⟩
  | kq :: k2 :: qr => by
    intro e w h
    simp only [lookupPath] at h
    cases he : lookupEntry e kq with
    | none => rw [he] at h; simp at h
    | some u =>
      exact ⟨kq, k2 :: qr, rfl, lookupEntry_containsKey e kq u he⟩

theorem lookupPath_cons_ne (k2 : String) (v2 : GoVal) (rest : GoEntries)
    (kq : String) (qr : List String) (hne : kq ≠ k2) :
    lookupPath (.cons k2 v2 rest) (kq :: qr) = lookupPath rest (kq :: qr) := by
  have hent : lookupEntry (.cons k2 v2 rest) kq = lookupEntry rest kq := by
    simp only [lookupEntry]
    rw [if_neg (fun h => hne h.symm)]
  cases qr with
  | nil => simp only [lookupPath, hent]
  | cons q2 qr2 => simp only [lookupPath, hent]

/-- Error shape of the `applyNested` loop body: either a nested table
resolution failed, or the message itself embeds the env key of this
entry. -/
theorem applyNestedHead_error_shape (env : EnvMap) (key : String) (v : GoVal)
    (msg : String) (h : applyNestedHead env key v = .error msg) :
    (∃ m, v = .table m ∧ applyNested env key m = .error msg) ∨
    (∃ pre post, msg = pre ++ (key ++ post)) := by
  cases v with
  | table m =>
    left
    refine ⟨m, rfl, ?_⟩
    simp only [applyNestedHead] at h
    cases hm : applyNested env key m with
    | error e =>
      rw [hm] at h
      simp only [Except.error.injEq] at h
      exact congrArg Except.error h
    | ok m' => rw [hm] at h; simp at h
  | arr xs =>
    right
    simp only [applyNestedHead] at h
    split at h
    · simp at h
    · split at h
      · simp at h
      · split at h
        · rename_i e he
          simp only [Except.error.injEq] at h
          exact ⟨"invalid array value for ", ": " ++ e, by
            rw [← h]; simp [String.append_assoc]⟩
        · simp at h
  | str sv =>
    right
    simp only [applyNestedHead] at h
    split at h
    · simp at h
    · split at h
      · rename_i e he
        simp only [Except.error.injEq] at h
        exact ⟨"invalid value for ", ": " ++ e, by rw [← h]; simp [String.append_assoc]⟩
      · simp at h
  | int n =>
    right
    simp only [applyNestedHead] at h
    split at h
    · simp at h
    · split at h
      · rename_i e he
        simp only [Except.error.injEq] at h
        exact ⟨"invalid value for ", ": " ++ e, by rw [← h]; simp [String.append_assoc]⟩
      · simp at h
  | float r =>
    right
    simp only [applyNestedHead] at h
    split at h
    · simp at h
    · split at h
      · rename_i e he
        simp only [Except.error.injEq] at h
        exact ⟨"invalid value for ", ": " ++ e, by rw [← h]; simp [String.append_assoc]⟩
      · simp at h
  | bool b =>
    right
    simp only [applyNestedHead] at h
    split at h
    · simp at h
    · split at h
      · rename_i e he
        simp only [Except.error.injEq] at h
        exact ⟨"invalid value for ", ": " ++ e, by rw [← h]; simp [String.append_assoc]⟩
      · simp at h
  | other tag =>
    right
    simp only [applyNestedHead] at h
    split at h
    · simp at h
    · split at h
      · rename_i e he
        simp only [Except.error.injEq] at h
        exact ⟨"invalid value for ", ": " ++ e, by rw [← h]; simp [String.append_assoc]⟩
      · simp at h
  | arrTables ts =>
    right
    simp only [applyNestedHead] at h
    split at h
    · simp at h
    · split at h
      · rename_i e he
        simp only [Except.error.injEq] at h
        exact ⟨"invalid value for ", ": " ++ e, by rw [← h]; simp [String.append_assoc]⟩
      · simp at h

/-- A failing `applyNested` run pinpoints an entry: some path whose loop
body fails, with its full env key embedded in the message. -/
theorem applyNested_error (env : EnvMap) :
    (t : GoEntries) → ∀ (pfx msg : String), deepUniq t = true →
      applyNested env pfx t = .error msg →
      ∃ q w, lookupPath t q = some w ∧
        (∃ m, applyNestedHead env (pfx ++ "_" ++ joinUpper q) w = .error m) ∧
        (∃ pre post, msg = pre ++ ((pfx ++ "_" ++ joinUpper q) ++ post))
  | .nil => by intro pfx msg _ h; simp [applyNested] at h
  | .cons k2 v2 rest => by
    intro pfx msg hU h
    simp only [deepUniq, Bool.and_eq_true, Bool.not_eq_true'] at hU
    obtain ⟨⟨hUk, hUv⟩, hUr⟩ := hU
    simp only [applyNested] at h
    cases hh : applyNestedHead env (pfx ++ "_" ++ goUpper k2) v2 with
    | error e =>
      rw [hh] at h
      simp only [Except.error.injEq] at h
      subst h
      rcases applyNestedHead_error_shape env _ v2 e hh with ⟨m, hv, hm⟩ | ⟨pre, post, hmsg⟩
      · subst hv
        have hUm : deepUniq m = true := by simpa [valUniq] using hUv
        obtain ⟨q', w, hlq, hfail, pre, post, hmsg⟩ :=
          applyNested_error env m (pfx ++ "_" ++ goUpper k2) e hUm hm
        obtain ⟨kq, qr, rfl, _⟩ := lookupPath_head_contains q' m w hlq
        have hkey : pfx ++ "_" ++ joinUpper (k2 :: kq :: qr)
            = pfx ++ "_" ++ goUpper k2 ++ "_" ++ joinUpper (kq :: qr) := by
          simp only [joinUpper]
          simp [String.append_assoc]
        refine ⟨k2 :: kq :: qr, w, ?_, ?_, ?_⟩
        · simp only [lookupPath, lookupEntry, if_pos rfl]
          exact hlq
        · rw [hkey]
          exact hfail
        · rw [hkey]
          exact ⟨pre, post, hmsg⟩
      · refine ⟨[k2], v2, ?_, ⟨e, ?_⟩, ?_⟩
        · simp [lookupPath, lookupEntry]
        · simpa [joinUpper] using hh
        · simpa [joinUpper] using ⟨pre, post, hmsg⟩
    | ok v2' =>
      rw [hh] at h
      cases hr : applyNested env pfx rest with
      | error e =>
        rw [hr] at h
        simp only [Except.error.injEq] at h
        subst h
        obtain ⟨q, w, hlq, hfail, hmsg⟩ := applyNested_error env rest pfx e hUr hr
        obtain ⟨kq, qr, rfl, hck⟩ := lookupPath_head_contains q rest w hlq
        have hne : kq ≠ k2 := by
          intro hkk
          subst hkk
          rw [hck] at hUk
          simp at hUk
        refine ⟨kq :: qr, w, ?_, hfail, hmsg⟩
        rw [lookupPath_cons_ne k2 v2 rest kq qr hne]
        exact hlq
      | ok rest' => rw [hr] at h; simp at h

/-- Error shape of the `Apply` loop body: either a nested section failed
(message wrapped with the section name), or the message embeds the env
key of this top-level entry. -/
theorem applyTopHead_error_shape (env : EnvMap) (k pfx : String) (v : GoVal)
    (msg : String) (h : applyTopHead env k pfx v = .error msg) :
    (∃ m e0, v = .table m ∧ applyNested env pfx m = .error e0 ∧
      msg = "error in section " ++ k ++ ": " ++ e0) ∨
    (∃ pre post, msg = pre ++ (pfx ++ post)) := by
  cases v with
  | table m =>
    left
    simp only [applyTopHead] at h
    cases hm : applyNested env pfx m with
    | error e =>
      rw [hm] at h
      simp only [Except.error.injEq] at h
      exact ⟨m, e, rfl, hm, h.symm⟩
    | ok m' => rw [hm] at h; simp at h
  | str sv =>
    right
    simp only [applyTopHead] at h
    split at h
    · simp at h
    · split at h
      · rename_i e he
        simp [convertValue] at he
      · simp at h
  | int n =>
    right
    simp only [applyTopHead] at h
    split at h
    · simp at h
    · split at h
      · rename_i e he
        simp only [Except.error.injEq] at h
        exact ⟨"invalid value for ", ": " ++ e, by rw [← h]; simp [String.append_assoc]⟩
      · simp at h
  | float r =>
    right
    simp only [applyTopHead] at h
    split at h
    · simp at h
    · split at h
      · rename_i e he
        simp only [Except.error.injEq] at h
        exact ⟨"invalid value for ", ": " ++ e, by rw [← h]; simp [String.append_assoc]⟩
      · simp at h
  | bool b =>
    right
    simp only [applyTopHead] at h
    split at h
    · simp at h
    · split at h
      · rename_i e he
        simp only [Except.error.injEq] at h
        exact ⟨"invalid value for ", ": " ++ e, by rw [← h]; simp [String.append_assoc]⟩
      · simp at h
  | other tag =>
    right
    simp only [applyTopHead] at h
    split at h
    · simp at h
    · split at h
      · rename_i e he
        simp [convertValue] at he
      · simp at h
  | arr xs =>
    right
    simp only [applyTopHead] at h
    split at h
    · simp at h
    · split at h
      · rename_i e he
        simp [convertValue] at he
      · simp at h
  | arrTables ts =>
    right
    simp only [applyTopHead] at h
    split at h
    · simp at h
    · split at h
      · rename_i e he
        simp [convertValue] at he
      · simp at h

/-- A failing `Apply` run aborts the whole resolution, and its message
embeds the env key of an entry whose override processing fails. -/
theorem apply_error (env : EnvMap) :
    (t : GoEntries) → ∀ (msg : String), deepUniq t = true →
      applyTop env t = .error msg →
      ∃ q, overrideFails env t q ∧ hasKeyIn msg (envKeyOf q)
  | .nil => by intro msg _ h; simp [applyTop] at h
  | .cons k2 v2 rest => by
    intro msg hU h
    simp only [deepUniq, Bool.and_eq_true, Bool.not_eq_true'] at hU
    obtain ⟨⟨hUk, hUv⟩, hUr⟩ := hU
    simp only [applyTop] at h
    cases hh : applyTopHead env k2 ("CONFIG_" ++ goUpper k2) v2 with
    | error e =>
      rw [hh] at h
      simp only [Except.error.injEq] at h
      subst h
      rcases applyTopHead_error_shape env k2 _ v2 e hh with
        ⟨m, e0, hv, hm, hmsg⟩ | ⟨pre, post, hmsg⟩
      · subst hv
        have hUm : deepUniq m = true := by simpa [valUniq] using hUv
        obtain ⟨q', w, hlq, hfail, pre, post, hmsg2⟩ :=
          applyNested_error env m ("CONFIG_" ++ goUpper k2) e0 hUm hm
        obtain ⟨kq, qr, rfl, _⟩ := lookupPath_head_contains q' m w hlq
        have hkey : envKeyOf (k2 :: kq :: qr)
            = "CONFIG_" ++ goUpper k2 ++ "_" ++ joinUpper (kq :: qr) := by
          simp only [envKeyOf, joinUpper]
          simp [String.append_assoc]
        refine ⟨k2 :: kq :: qr, ⟨w, ?_, ?_⟩, ?_⟩
        · simp only [lookupPath, lookupEntry, if_pos rfl]
          exact hlq
        · rw [hkey]
          exact hfail
        · rw [hmsg, hmsg2, hkey]
          exact ⟨"error in section " ++ k2 ++ ": " ++ pre, post, by
            simp [String.append_assoc]⟩
      · refine ⟨[k2], ⟨v2, by simp [lookupEntry], ⟨e, hh⟩⟩, ?_⟩
        have : envKeyOf [k2] = "CONFIG_" ++ goUpper k2 := by
          simp [envKeyOf, joinUpper]
        rw [hasKeyIn, this]
        exact ⟨pre, post, hmsg⟩
    | ok v2' =>
      rw [hh] at h
      cases hr : applyTop env rest with
      | error e =>
        rw [hr] at h
        simp only [Except.error.injEq] at h
        subst h
        obtain ⟨q, hfail, hmsg⟩ := apply_error env rest e hUr hr
        obtain ⟨kq, qr, rfl⟩ : ∃ kq qr, q = kq :: qr := by
          cases q with
          | nil => exact absurd hfail (by simp [overrideFails])
          | cons a b => exact ⟨a, b, rfl⟩
        have hck : containsKey rest kq = true := by
          cases qr with
          | nil =>
            obtain ⟨w, hw, _⟩ := hfail
            exact lookupEntry_containsKey rest kq w hw
          | cons q2 qr2 =>
            obtain ⟨w, hw, _⟩ := hfail
            obtain ⟨kq', qr', heq, hck⟩ :=
              lookupPath_head_contains (kq :: q2 :: qr2) rest w hw
            cases heq
            exact hck
        have hne : kq ≠ k2 := by
          intro hkk
          subst hkk
          rw [hck] at hUk
          simp at hUk
        refine ⟨kq :: qr, ?_, hmsg⟩
        cases qr with
        | nil =>
          obtain ⟨w, hw, hfl⟩ := hfail
          refine ⟨w, ?_, hfl⟩
          simp only [lookupEntry]
          rw [if_neg (fun hx => hne hx.symm)]
          exact hw
        | cons q2 qr2 =>
          obtain ⟨w, hw, hfl⟩ := hfail
          refine ⟨w, ?_, hfl⟩
          rw [lookupPath_cons_ne k2 v2 rest kq (q2 :: qr2) hne]
          exact hw
      | ok rest' => rw [hr] at h; simp at h

/-! ## Behaviour of the override loop bodies on special inputs -/

/-- The strictly parsed scalar kinds of `convertValue`: integer, float,
boolean. -/
def isStrictScalar : GoVal → Bool
  | .int _ => true
  | .float _ => true
  | .bool _ => true
  | _ => false

theorem applyNestedHead_emptyKey (env : EnvMap) (key : String) (v : GoVal)
    (hk : env key = "") (hv : ∀ m, v ≠ .table m) :
    applyNestedHead env key v = .ok v := by
  cases v with
  | table m => exact absurd rfl (hv m)
  | arr xs => simp [applyNestedHead, hk]
  | str sv => simp [applyNestedHead, hk]
  | int n => simp [applyNestedHead, hk]
  | float r => simp [applyNestedHead, hk]
  | bool b => simp [applyNestedHead, hk]
  | other tag => simp [applyNestedHead, hk]
  | arrTables ts => simp [applyNestedHead, hk]

theorem applyTopHead_emptyKey (env : EnvMap) (k pfx : String) (v : GoVal)
    (hk : env pfx = "") (hv : ∀ m, v ≠ .table m) :
    applyTopHead env k pfx v = .ok v := by
  cases v with
  | table m => exact absurd rfl (hv m)
  | arr xs => simp [applyTopHead, hk]
  | str sv => simp [applyTopHead, hk]
  | int n => simp [applyTopHead, hk]
  | float r => simp [applyTopHead, hk]
  | bool b => simp [applyTopHead, hk]
  | other tag => simp [applyTopHead, hk]
  | arrTables ts => simp [applyTopHead, hk]

theorem applyNestedHead_strict_error (env : EnvMap) (key : String) (v : GoVal)
    (e0 : String) (hs : isStrictScalar v = true) (he : env key ≠ "")
    (hf : convertValue (env key) v = .error e0) :
    applyNestedHead env key v = .error ("invalid value for " ++ key ++ ": " ++ e0) := by
  cases v with
  | int n => simp [applyNestedHead, he, hf]
  | float r => simp [applyNestedHead, he, hf]
  | bool b => simp [applyNestedHead, he, hf]
  | str sv => simp [isStrictScalar] at hs
  | other tag => simp [isStrictScalar] at hs
  | arr xs => simp [isStrictScalar] at hs
  | table m => simp [isStrictScalar] at hs
  | arrTables ts => simp [isStrictScalar] at hs

theorem applyTopHead_strict_error (env : EnvMap) (k pfx : String) (v : GoVal)
    (e0 : String) (hs : isStrictScalar v = true) (he : env pfx ≠ "")
    (hf : convertValue (env pfx) v = .error e0) :
    applyTopHead env k pfx v = .error ("invalid value for " ++ pfx ++ ": " ++ e0) := by
  cases v with
  | int n => simp [applyTopHead, he, hf]
  | float r => simp [applyTopHead, he, hf]
  | bool b => simp [applyTopHead, he, hf]
  | str sv => simp [isStrictScalar] at hs
  | other tag => simp [isStrictScalar] at hs
  | arr xs => simp [isStrictScalar] at hs
  | table m => simp [isStrictScalar] at hs
  | arrTables ts => simp [isStrictScalar] at hs

mutual
/-- With every environment variable empty, `applyNested` is the
identity. -/
theorem applyNested_allEmpty (env : EnvMap) (he : ∀ k, env k = "") :
    (t : GoEntries) → ∀ (pfx : String), applyNested env pfx t = .ok t
  | .nil => by intro pfx; simp [applyNested]
  | .cons k v rest => by
    intro pfx
    simp only [applyNested]
    rw [applyNestedHead_allEmpty env he v (pfx ++ "_" ++ goUpper k)]
    rw [applyNested_allEmpty env he rest pfx]
theorem applyNestedHead_allEmpty (env : EnvMap) (he : ∀ k, env k = "") :
    (v : GoVal) → ∀ (key : String), applyNestedHead env key v = .ok v
  | .table m => by
    intro key
    simp only [applyNestedHead]
    rw [applyNested_allEmpty env he m key]
  | .arr xs => by intro key; simp [applyNestedHead, he key]
  | .str sv => by intro key; simp [applyNestedHead, he key]
  | .int n => by intro key; simp [applyNestedHead, he key]
  | .float r => by intro key; simp [applyNestedHead, he key]
  | .bool b => by intro key; simp [applyNestedHead, he key]
  | .other tag => by intro key; simp [applyNestedHead, he key]
  | .arrTables ts => by intro key; simp [applyNestedHead, he key]
end

/-- With every environment variable empty, `Apply` is the identity. -/
theorem apply_allEmpty (env : EnvMap) (he : ∀ k, env k = "") :
    (t : GoEntries) → applyTop env t = .ok t
  | .nil => by simp [applyTop]
  | .cons k v rest => by
    simp only [applyTop]
    have hh : applyTopHead env k ("CONFIG_" ++ goUpper k) v = .ok v := by
      cases v with
      | table m =>
        simp only [applyTopHead]
        rw [applyNested_allEmpty env he m ("CONFIG_" ++ goUpper k)]
      | arr xs => simp [applyTopHead, he _]
      | str sv => simp [applyTopHead, he _]
      | int n => simp [applyTopHead, he _]
      | float r => simp [applyTopHead, he _]
      | bool b => simp [applyTopHead, he _]
      | other tag => simp [applyTopHead, he _]
      | arrTables ts => simp [applyTopHead, he _]
    rw [hh, apply_allEmpty env he rest]

/-- If the loop body fails on any top-level entry, `Apply` aborts. -/
theorem apply_aborts_entry (env : EnvMap) (t : GoEntries) (k : String) (v : GoVal)
    (hl : lookupEntry t k = some v)
    (hf : ∃ m, applyTopHead env k ("CONFIG_" ++ goUpper k) v = .error m) :
    ∃ msg, applyTop env t = .error msg := by
  cases h : applyTop env t with
  | error msg => exact ⟨msg, rfl⟩
  | ok out =>
    obtain ⟨v', hh, _⟩ := applyTop_lookup env t out k v h hl
    obtain ⟨m, hm⟩ := hf
    rw [hm] at hh
    exact absurd hh (by simp)

/-- If the loop body fails at any deeper path, `Apply` aborts. -/
theorem apply_aborts_deep (env : EnvMap) (t : GoEntries) (k k2 : String)
    (rest : List String) (v : GoVal)
    (hl : lookupPath t (k :: k2 :: rest) = some v)
    (hf : ∃ m, applyNestedHead env (envKeyOf (k :: k2 :: rest)) v = .error m) :
    ∃ msg, applyTop env t = .error msg := by
  cases h : applyTop env t with
  | error msg => exact ⟨msg, rfl⟩
  | ok out =>
    obtain ⟨v', hh, _⟩ := apply_path_deep env k k2 rest t out v h hl
    obtain ⟨m, hm⟩ := hf
    rw [hm] at hh
    exact absurd hh (by simp)

/-! ## Plumbing lemmas for `generateFromFile` -/

theorem gff_parse_error (opts : GenOptions) (w : GenWorld) (e : String)
    (ho : opts.outputFile ≠ "") (hp : w.parseResult = .error e) :
    generateFromFile opts w = (.error ("failed to parse TOML: " ++ e), w) := by
  simp [generateFromFile, if_neg ho, hp]

theorem gff_env_error (opts : GenOptions) (w : GenWorld) (t : GoEntries) (e : String)
    (ho : opts.outputFile ≠ "") (hp : w.parseResult = .ok t)
    (henv : opts.enableEnv = true) (ha : apply w.env t = .error e) :
    generateFromFile opts w = (.error ("failed to apply environment overrides: " ++ e), w) := by
  simp only [generateFromFile, if_neg ho, hp, henv, if_pos rfl]
  rw [show (if True then apply w.env t else Except.ok t) = apply w.env t from if_pos trivial]
  rw [ha]

theorem gff_pipeline_error (opts : GenOptions) (w : GenWorld) (t data2 : GoEntries)
    (e : String) (ho : opts.outputFile ≠ "") (hp : w.parseResult = .ok t)
    (hres : (if opts.enableEnv then apply w.env t else .ok t) = .ok data2)
    (hv : generatePipeline (genOf opts w) (modeOf opts) data2 = .error e) :
    generateFromFile opts w = (.error ("failed to generate code: " ++ e), w) := by
  simp only [generateFromFile, if_neg ho, hp]
  rw [hres]
  simp [hv]

theorem gff_ok_shape (opts : GenOptions) (w : GenWorld)
    (h : (generateFromFile opts w).1 = .ok ()) :
    ∃ t data2 code, w.parseResult = .ok t ∧
      (if opts.enableEnv then apply w.env t else .ok t) = .ok data2 ∧
      generatePipeline (genOf opts w) (modeOf opts) data2 = .ok code ∧
      validateFileReferences (genOf opts w) data2 = .ok () ∧
      generateFromFile opts w = (.ok (), { w with output := some code }) := by
  by_cases ho : opts.outputFile = ""
  · simp [generateFromFile, ho] at h
  · cases hp : w.parseResult with
    | error e => rw [gff_parse_error opts w e ho hp] at h ⊢; simp at h
    | ok t =>
      cases hres : (if opts.enableEnv then apply w.env t else .ok t) with
      | error e =>
        have henv : opts.enableEnv = true := by
          by_cases hb : opts.enableEnv
          · exact hb
          · rw [if_neg hb] at hres; simp at hres
        rw [henv, if_pos rfl] at hres
        rw [gff_env_error opts w t e ho hp henv hres] at h
        simp at h
      | ok data2 =>
        cases hgen : generatePipeline (genOf opts w) (modeOf opts) data2 with
        | error e =>
          rw [gff_pipeline_error opts w t data2 e ho hp hres hgen] at h
          simp at h
        | ok code =>
          refine ⟨t, data2, code, rfl, hres, hgen, ?_, ?_⟩
          · simp only [generatePipeline] at hgen
            cases hval : validateFileReferences (genOf opts w) data2 with
            | error e => rw [hval] at hgen; simp at hgen
            | ok u => cases u; rfl
          · simp only [generateFromFile, if_neg ho, hp]
            rw [hres]
            simp [hgen]

theorem gff_error_world (opts : GenOptions) (w : GenWorld) (e : String)
    (h : (generateFromFile opts w).1 = .error e) :
    (generateFromFile opts w).2 = w := by
  by_cases ho : opts.outputFile = ""
  · simp [generateFromFile, ho]
  · cases hp : w.parseResult with
    | error e2 => rw [gff_parse_error opts w e2 ho hp]
    | ok t =>
      cases hres : (if opts.enableEnv then apply w.env t else .ok t) with
      | error e2 =>
        have henv : opts.enableEnv = true := by
          by_cases hb : opts.enableEnv
          · exact hb
          · rw [if_neg hb] at hres; simp at hres
        rw [henv, if_pos rfl] at hres
        rw [gff_env_error opts w t e2 ho hp henv hres]
      | ok data2 =>
        cases hgen : generatePipeline (genOf opts w) (modeOf opts) data2 with
        | error e2 => rw [gff_pipeline_error opts w t data2 e2 ho hp hres hgen]
        | ok code =>
          exfalso
          have : generateFromFile opts w = (.ok (), { w with output := some code }) := by
            simp only [generateFromFile, if_neg ho, hp]
            rw [hres]
            simp [hgen]
          rw [this] at h
          simp at h

/-! ## Claim theorems: environment override behaviour -/

/-- C10: An environment variable that is set to the empty string is
treated by override resolution exactly like an absent variable: with all
variables empty the whole resolution succeeds and returns the tree
unchanged (no error even for Integer/Float/Bool targets), and any
non-table target (scalar or array, at any depth) whose variable is empty
is left unchanged on a successful run; consequently no value is ever
overridden to the empty string. -/
theorem empty_env_is_absent (env : EnvMap) (t : GoEntries) :
    ((∀ k, env k = "") → apply env t = .ok t) ∧
    (∀ (path : List String) (v : GoVal) (out : GoEntries),
      lookupPath t path = some v → (∀ m, v ≠ .table m) →
      env (envKeyOf path) = "" → apply env t = .ok out →
      lookupPath out path = some v) := by
  constructor
  · intro he
    exact apply_allEmpty env he t
  · intro path v out hl hv he hok
    cases path with
    | nil => simp [lookupPath] at hl
    | cons k rest =>
      cases rest with
      | nil =>
        simp only [lookupPath] at hl ⊢
        obtain ⟨v', hh, hl'⟩ := applyTop_lookup env t out k v hok hl
        have he' : env ("CONFIG_" ++ goUpper k) = "" := by
          simpa [envKeyOf, joinUpper] using he
        rw [applyTopHead_emptyKey env k _ v he' hv] at hh
        simp only [Except.ok.injEq] at hh
        rw [← hh] at hl'
        exact hl'
      | cons k2 rest2 =>
        obtain ⟨v', hh, hl'⟩ := apply_path_deep env k k2 rest2 t out v hok hl
        rw [applyNestedHead_emptyKey env _ v he hv] at hh
        simp only [Except.ok.injEq] at hh
        rw [← hh] at hl'
        exact hl'

/-- C10 witness. -/
theorem empty_env_is_absent_witness :
    apply (fun _ => "")
        (.cons "database" (.table (.cons "max_conns" (.int 10) .nil)) .nil)
      = .ok (.cons "database" (.table (.cons "max_conns" (.int 10) .nil)) .nil) ∧
    lookupPath (.cons "database" (.table (.cons "max_conns" (.int 10) .nil)) .nil)
        ["database", "max_conns"] = some (.int 10) := by
  have h := empty_env_is_absent (fun _ => "")
    (.cons "database" (.table (.cons "max_conns" (.int 10) .nil)) .nil)
  refine ⟨h.1 (fun _ => rfl), ?_⟩
  exact h.2 ["database", "max_conns"] (.int 10) _ rfl
    (fun m hx => GoVal.noConfusion hx) rfl (h.1 (fun _ => rfl))

/-- C7 counterexample: at the top level of the tree, an array of scalars
whose environment variable is set is not comma-split; `Apply`'s default
branch passes the raw override string through `convertValue`, replacing
the array with a string.  The claim's predicted result — the split,
trimmed, element-converted array that `convertArray` would produce — is a
different value. -/
theorem array_override_top_level_counterexample :
    apply (fun k => if k = "CONFIG_PORTS" then "9000, 9001" else "")
        (.cons "ports" (.arr (.cons (.int 8080) .nil)) .nil)
      = .ok (.cons "ports" (.str "9000, 9001") .nil) ∧
    convertArray "9000, 9001" (.int 8080)
      = .ok (.cons (.int 9000) (.cons (.int 9001) .nil)) ∧
    GoVal.str "9000, 9001" ≠ GoVal.arr (.cons (.int 9000) (.cons (.int 9001) .nil)) :=
  ⟨rfl, rfl, fun h => GoVal.noConfusion h⟩

/-- C7 (amended): for every array of scalars nested inside at least one
table (depth ≥ 2), if its environment variable is set to a non-empty
string and resolution succeeds, the array is replaced by the override
string split on commas, each element trimmed and converted against the
first existing element's type (`convertArray`); an empty array is left
unchanged.  Top-level arrays are instead replaced by the raw override
string (see the counterexample). -/
theorem array_override_nested (env : EnvMap) (t : GoEntries) (k k2 : String)
    (rest : List String) (xs : GoValList) (out : GoEntries)
    (hl : lookupPath t (k :: k2 :: rest) = some (.arr xs))
    (he : env (envKeyOf (k :: k2 :: rest)) ≠ "")
    (hok : apply env t = .ok out) :
    (xs = .nil → lookupPath out (k :: k2 :: rest) = some (.arr .nil)) ∧
    (∀ x tl, xs = .cons x tl →
      ∃ ws, convertArray (env (envKeyOf (k :: k2 :: rest))) x = .ok ws ∧
        lookupPath out (k :: k2 :: rest) = some (.arr ws)) := by
  obtain ⟨v', hh, hl'⟩ := apply_path_deep env k k2 rest t out (.arr xs) hok hl
  constructor
  · rintro rfl
    simp only [applyNestedHead, if_neg he] at hh
    simp only [Except.ok.injEq] at hh
    rw [← hh] at hl'
    exact hl'
  · rintro x tl rfl
    simp only [applyNestedHead, if_neg he] at hh
    cases hc : convertArray (env (envKeyOf (k :: k2 :: rest))) x with
    | error e => rw [hc] at hh; simp at hh
    | ok ws =>
      rw [hc] at hh
      simp only [Except.ok.injEq] at hh
      rw [← hh] at hl'
      exact ⟨ws, rfl, hl'⟩

/-- C7 witness. -/
theorem array_override_nested_witness :
    lookupPath
        (.cons "service" (.table (.cons "ports" (.arr (.cons (.int 8080) .nil)) .nil)) .nil)
        ["service", "ports"] = some (.arr (.cons (.int 8080) .nil)) ∧
    (fun k => if k = "CONFIG_SERVICE_PORTS" then "9000, 9001" else "")
        (envKeyOf ["service", "ports"]) ≠ "" ∧
    (∃ ws, convertArray "9000, 9001" (.int 8080) = .ok ws ∧
      lookupPath
        (.cons "service"
          (.table (.cons "ports" (.arr (.cons (.int 9000) (.cons (.int 9001) .nil))) .nil)) .nil)
        ["service", "ports"] = some (.arr ws)) := by
  refine ⟨rfl, by decide, ?_⟩
  have h := array_override_nested
    (fun k => if k = "CONFIG_SERVICE_PORTS" then "9000, 9001" else "")
    (.cons "service" (.table (.cons "ports" (.arr (.cons (.int 8080) .nil)) .nil)) .nil)
    "service" "ports" [] (.cons (.int 8080) .nil)
    (.cons "service"
      (.table (.cons "ports" (.arr (.cons (.int 9000) (.cons (.int 9001) .nil))) .nil)) .nil)
    rfl (by decide) rfl
  exact h.2 (.int 8080) .nil rfl

/-- C3: in static mode, an environment override whose value fails strict
parsing against an Integer/Float/Bool original aborts the whole
resolution: `Apply` returns an error whose message embeds the
environment key of a failing entry (so the original tree is never
silently patched with a fallback), and `GenerateFromFile` then returns
an error with the output file untouched. -/
theorem static_override_failure_aborts (env : EnvMap) (t : GoEntries)
    (path : List String) (orig : GoVal) (e0 : String)
    (hU : deepUniq t = true)
    (hp : lookupPath t path = some orig)
    (hs : isStrictScalar orig = true)
    (he : env (envKeyOf path) ≠ "")
    (hf : convertValue (env (envKeyOf path)) orig = .error e0) :
    (∃ msg, apply env t = .error msg ∧
      ∃ q, overrideFails env t q ∧ hasKeyIn msg (envKeyOf q)) ∧
    (∀ (opts : GenOptions) (w : GenWorld), opts.outputFile ≠ "" →
      opts.enableEnv = true → w.parseResult = .ok t → w.env = env →
      (∃ m2, (generateFromFile opts w).1 = .error m2) ∧
      (generateFromFile opts w).2.output = w.output) := by
  have habort : ∃ msg, apply env t = .error msg := by
    cases path with
    | nil => simp [lookupPath] at hp
    | cons k rest =>
      cases rest with
      | nil =>
        simp only [lookupPath] at hp
        have he' : env ("CONFIG_" ++ goUpper k) ≠ "" := by
          simpa [envKeyOf, joinUpper] using he
        have hf' : convertValue (env ("CONFIG_" ++ goUpper k)) orig = .error e0 := by
          have : envKeyOf [k] = "CONFIG_" ++ goUpper k := by simp [envKeyOf, joinUpper]
          rw [this] at hf
          exact hf
        exact apply_aborts_entry env t k orig hp
          ⟨_, applyTopHead_strict_error env k _ orig e0 hs he' hf'⟩
      | cons k2 rest2 =>
        exact apply_aborts_deep env t k k2 rest2 orig hp
          ⟨_, applyNestedHead_strict_error env _ orig e0 hs he hf⟩
  obtain ⟨msg, hmsg⟩ := habort
  constructor
  · exact ⟨msg, hmsg, apply_error env t msg hU hmsg⟩
  · intro opts w ho henv hpr hwe
    have ha : apply w.env t = .error msg := by rw [hwe]; exact hmsg
    have := gff_env_error opts w t msg ho hpr henv ha
    rw [this]
    exact ⟨⟨_, rfl⟩, rfl⟩

/-- C3 witness. -/
theorem static_override_failure_aborts_witness :
    (∃ msg,
      apply (fun k => if k = "CONFIG_DATABASE_MAX_CONNS" then "not-a-number" else "")
          (.cons "database" (.table (.cons "max_conns" (.int 10) .nil)) .nil)
        = .error msg ∧
      ∃ q, overrideFails
          (fun k => if k = "CONFIG_DATABASE_MAX_CONNS" then "not-a-number" else "")
          (.cons "database" (.table (.cons "max_conns" (.int 10) .nil)) .nil) q ∧
        hasKeyIn msg (envKeyOf q)) ∧
    (∃ m2,
      (generateFromFile
        { outputFile := "config.go", enableEnv := true, mode := "",
          maxFileSize := 0, inputDir := "" }
        { parseResult := .ok (.cons "database" (.table (.cons "max_conns" (.int 10) .nil)) .nil),
          env := fun k => if k = "CONFIG_DATABASE_MAX_CONNS" then "not-a-number" else "",
          fs := fun _ => none, output := none }).1 = .error m2) ∧
    (generateFromFile
        { outputFile := "config.go", enableEnv := true, mode := "",
          maxFileSize := 0, inputDir := "" }
        { parseResult := .ok (.cons "database" (.table (.cons "max_conns" (.int 10) .nil)) .nil),
          env := fun k => if k = "CONFIG_DATABASE_MAX_CONNS" then "not-a-number" else "",
          fs := fun _ => none, output := none }).2.output = none := by
  have h := static_override_failure_aborts
    (fun k => if k = "CONFIG_DATABASE_MAX_CONNS" then "not-a-number" else "")
    (.cons "database" (.table (.cons "max_conns" (.int 10) .nil)) .nil)
    ["database", "max_conns"] (.int 10)
    ("expected integer: strconv.ParseInt: parsing \"not-a-number\": invalid syntax")
    rfl rfl rfl (by decide) rfl
  refine ⟨h.1, ?_, ?_⟩
  · exact (h.2 _ _ (by decide) rfl rfl rfl).1
  · exact (h.2 _ _ (by decide) rfl rfl rfl).2

/-! ## Claim theorems: classification and the watch loop -/

/-- C4: semantic classification of string scalars applies the fixed
priority file-reference over duration over plain string — a `file:`
string is `[]byte` regardless of anything else, otherwise a
duration-parsable string is `time.Duration`, and any other string is
`string`; classification is a total function and an otherwise
unclassifiable dynamic value is typed `any`. -/
theorem classification_priority (s tag : String) :
    (isFileReference s = true → toGoType (.str s) = "[]byte") ∧
    (isFileReference s = false → isDurationString s = true →
      toGoType (.str s) = "time.Duration") ∧
    (isFileReference s = false → isDurationString s = false →
      toGoType (.str s) = "string") ∧
    toGoType (.other tag) = "any" := by
  refine ⟨?_, ?_, ?_, rfl⟩
  · intro h; simp [toGoType, h]
  · intro h1 h2; simp [toGoType, h1, h2]
  · intro h1 h2; simp [toGoType, h1, h2]

/-- C4 witness. -/
theorem classification_priority_witness :
    toGoType (.str "file:cert.pem") = "[]byte" ∧
    toGoType (.str "30s") = "time.Duration" ∧
    toGoType (.str "hello") = "string" ∧
    toGoType (.other "time.Time") = "any" :=
  ⟨(classification_priority "file:cert.pem" "x").1 rfl,
   (classification_priority "30s" "x").2.1 rfl rfl,
   (classification_priority "hello" "x").2.2.1 rfl rfl,
   (classification_priority "x" "time.Time").2.2.2⟩

/-- C9: in the watch loop, two write/create events within one debounce
window produce exactly one regeneration run, fired one debounce interval
after the second event and observing the file content as of that run —
i.e. the second event's content; arming the timer for the later event
discards (stops) the timer armed for the earlier one before its deadline
is reached. -/
theorem debounce_single_run (d t1 t2 : Nat) (c1 c2 : String)
    (h1 : t1 ≤ t2) (h2 : t2 < t1 + d) :
    watchRuns d [(t1, c1), (t2, c2)] = [(t2 + d, some c2)] := by
  have hna : ¬(t1 + d ≤ t2) := by omega
  have hb1 : t1 ≤ t2 + d := by omega
  have hb2 : t2 ≤ t2 + d := by omega
  simp [watchRuns, debounceSim, lastWriteContent, hna, hb1, hb2]

/-- C9 witness. -/
theorem debounce_single_run_witness :
    (0 ≤ 50 ∧ 50 < 0 + 100) ∧
    watchRuns 100 [(0, "first"), (50, "second")] = [(150, some "second")] :=
  ⟨by omega, debounce_single_run 100 0 50 "first" "second" (by omega) (by omega)⟩

/-! ## Duration decomposition arithmetic -/

/-- Greedy decomposition over any positive unit list: the emitted parts
sum to the input minus a remainder bounded by the last unit. -/
theorem durationPartsAux_decomp :
    (units : List (Int × String)) → ∀ (r : Int), 0 ≤ r →
      (∀ p ∈ units, 0 < p.1) →
      ∃ rem, durationPartsValue (durationPartsAux r units) + rem = r ∧ 0 ≤ rem ∧
        ∀ p, units.getLast? = some p → rem < p.1
  | [] => by
    intro r hr _
    exact ⟨r, by simp [durationPartsAux, durationPartsValue], hr, by simp⟩
  | (u, nm) :: rest => by
    intro r hr hpos
    have hu : 0 < u := hpos (u, nm) (by simp)
    by_cases hle : u ≤ r
    · have hcount : 0 < r / u := by
        have h1 : (1 : Int) ≤ r / u := (Int.le_ediv_iff_mul_le hu).mpr (by omega)
        omega
      obtain ⟨rem, hsum, hrem0, hlast⟩ :=
        durationPartsAux_decomp rest (r % u) (Int.emod_nonneg r (by omega))
          (fun p hp => hpos p (by simp [hp]))
      refine ⟨rem, ?_, hrem0, ?_⟩
      · simp only [durationPartsAux, if_pos hle, if_pos hcount, durationPartsValue]
        have hdm := Int.ediv_add_emod r u
        have hcomm : r / u * u = u * (r / u) := Int.mul_comm _ _
        omega
      · intro p hp
        cases rest with
        | nil =>
          simp at hp
          obtain ⟨rem2, hs2, _, _⟩ : ∃ rem2,
              durationPartsValue (durationPartsAux (r % u) []) + rem2 = r % u ∧
                0 ≤ rem2 ∧ True :=
            ⟨r % u, by simp [durationPartsAux, durationPartsValue], Int.emod_nonneg r (by omega), trivial⟩
          have : rem = r % u := by
            simp [durationPartsAux, durationPartsValue] at hsum
            omega
          rw [this, ← hp]
          exact Int.emod_lt_of_pos r hu
        | cons q qs =>
          apply hlast
          simpa using hp
    · obtain ⟨rem, hsum, hrem0, hlast⟩ :=
        durationPartsAux_decomp rest r hr (fun p hp => hpos p (by simp [hp]))
      refine ⟨rem, ?_, hrem0, ?_⟩
      · simp only [durationPartsAux, if_neg hle]
        exact hsum
      · intro p hp
        cases rest with
        | nil =>
          simp at hp
          have : rem = r := by
            simp [durationPartsAux, durationPartsValue] at hsum
            omega
          rw [this, ← hp]
          omega
        | cons q qs =>
          apply hlast
          simpa using hp

/-- The greedy decomposition of a nonnegative duration reconstructs it
exactly: the unit table ends in nanoseconds (unit 1), so the remainder
vanishes. -/
theorem durationParts_sum (d : Int) (hd : 0 ≤ d) :
    durationPartsValue (durationParts d) = d := by
  obtain ⟨rem, hsum, hrem0, hlast⟩ :=
    durationPartsAux_decomp durationUnits d hd (by decide)
  have : rem < 1 := hlast (1, "time.Nanosecond") (by decide)
  have : rem = 0 := by omega
  rw [this] at hsum
  simp only [durationParts]
  omega

/-! ## Claim theorems: duration literals -/

/-- C5 counterexample: a negative duration-classified string breaks the
round-trip law.  `"-1s"` parses to `-1000000000` ns, the greedy
decomposition produces no parts (no unit is `≤` a negative remainder),
and `writeDurationLiteral` falls back to the bare `"0"` literal, which
denotes a different value. -/
theorem duration_roundtrip_counterexample :
    parseDuration "-1s" = .ok (-1000000000) ∧
    isDurationString "-1s" = true ∧
    writeDurationLiteral "-1s" = "0" ∧
    durationParts (-1000000000) = [] ∧
    (0 : Int) ≠ -1000000000 :=
  ⟨rfl, rfl, rfl, rfl, by decide⟩

/-- C5 (amended): for every Duration-classified string whose parsed value
is nonnegative, the emitted literal is the greedy largest-to-smallest
decomposition into hour/minute/second/millisecond/microsecond/nanosecond
parts joined by `" + "`, and the value denoted by those parts equals the
parsed duration (round-trip law); a duration of exactly zero is emitted
as the bare `"0"` literal.  For negative durations the decomposition is
empty and the literal degrades to `"0"` (see the counterexample). -/
theorem duration_roundtrip_nonneg (s : String) (d : Int)
    (hp : parseDuration s = .ok d) (hd : 0 ≤ d) :
    (d = 0 → writeDurationLiteral s = "0") ∧
    (0 < d → writeDurationLiteral s = renderDurationParts (durationParts d) ∧
      durationPartsValue (durationParts d) = d) := by
  constructor
  · intro h0
    subst h0
    simp [writeDurationLiteral, hp]
  · intro hpos
    have hsum := durationParts_sum d hd
    have hne : durationParts d ≠ [] := by
      intro h
      rw [h] at hsum
      simp [durationPartsValue] at hsum
      omega
    refine ⟨?_, hsum⟩
    simp only [writeDurationLiteral, hp]
    rw [if_neg (by omega)]
    cases hparts : durationParts d with
    | nil => exact absurd hparts hne
    | cons p rest => simp [renderDurationParts]

/-- C5 witness. -/
theorem duration_roundtrip_nonneg_witness :
    (parseDuration "0s" = .ok 0 ∧ writeDurationLiteral "0s" = "0") ∧
    (parseDuration "2h30m" = .ok 9000000000000 ∧
      writeDurationLiteral "2h30m" = renderDurationParts (durationParts 9000000000000) ∧
      durationPartsValue (durationParts 9000000000000) = 9000000000000 ∧
      renderDurationParts (durationParts 9000000000000)
        = "2*time.Hour + 30*time.Minute") := by
  have h0 := duration_roundtrip_nonneg "0s" 0 rfl (by omega)
  have h1 := duration_roundtrip_nonneg "2h30m" 9000000000000 rfl (by omega)
  exact ⟨⟨rfl, h0.1 rfl⟩, ⟨rfl, (h1.2 (by omega)).1, (h1.2 (by omega)).2, rfl⟩⟩

/-! ## Byte-literal scanning lemmas -/

theorem hexDigitCh_facts : ∀ n, n < 16 →
    isHexCh (hexDigitCh n) = true ∧ hexChVal (hexDigitCh n) = n := by decide

theorem scanHex_cons_ne (c : Char) (hc : c ≠ '0') (l : List Char) :
    scanHexBytes (c :: l) = scanHexBytes l := by
  rw [scanHexBytes.eq_def]
  split
  · rename_i heq
    injection heq with h1 _
    exact absurd h1 hc
  · rename_i heq
    injection heq with _ h2
    rw [h2]
  · rename_i heq
    exact absurd heq (by simp)

theorem scanHex_append_noZero :
    (xs : List Char) → (∀ c ∈ xs, c ≠ '0') → ∀ (ys : List Char),
      scanHexBytes (xs ++ ys) = scanHexBytes ys
  | [] => by intro _ ys; simp
  | c :: xs' => by
    intro h ys
    rw [List.cons_append, scanHex_cons_ne c (h c (by simp)) (xs' ++ ys)]
    exact scanHex_append_noZero xs' (fun d hd => h d (by simp [hd])) ys

theorem scanHex_hexByte (b : Fin 256) (rest : List Char) :
    scanHexBytes (hexByteChars b ++ rest) = b.val :: scanHexBytes rest := by
  have hlt := b.isLt
  have h1 : b.val / 16 < 16 := by omega
  have h2 : b.val % 16 < 16 := by omega
  obtain ⟨hh1, hv1⟩ := hexDigitCh_facts _ h1
  obtain ⟨hh2, hv2⟩ := hexDigitCh_facts _ h2
  simp only [hexByteChars, List.cons_append, List.nil_append]
  rw [scanHexBytes]
  rw [hh1, hh2]
  simp only [Bool.and_self, if_true, hv1, hv2]
  have : b.val / 16 * 16 + b.val % 16 = b.val := by omega
  rw [this]
  rfl

theorem tabChars_noZero (n : Nat) : ∀ c ∈ tabChars n, c ≠ '0' := by
  intro c hc
  simp only [tabChars] at hc
  rw [List.eq_of_mem_replicate hc]
  decide

/-- Scanning the body of the literal with any trailing text recovers the
byte sequence followed by the scan of the trailer. -/
theorem scanHex_body (ind : List Char) (hind : ∀ c ∈ ind, c ≠ '0') :
    (l : List (Fin 256)) → ∀ (i : Nat) (tail : List Char),
      scanHexBytes (byteBodyChars ind i l ++ tail)
        = l.map Fin.val ++ scanHexBytes tail
  | [] => by intro i tail; simp [byteBodyChars]
  | b :: rest => by
    intro i tail
    simp only [byteBodyChars, List.append_assoc]
    have hskip1 : ∀ ys, scanHexBytes ((if i % 12 = 0 then ind else []) ++ ys)
        = scanHexBytes ys := by
      intro ys
      split
      · exact scanHex_append_noZero ind hind ys
      · simp
    rw [hskip1, scanHex_hexByte]
    have hskip2 : ∀ ys, scanHexBytes ((if rest ≠ [] then [',', ' '] else []) ++ ys)
        = scanHexBytes ys := by
      intro ys
      split
      · exact scanHex_append_noZero [',', ' '] (by decide) ys
      · simp
    have hskip3 : ∀ ys,
        scanHexBytes ((if i % 12 = 11 ∧ rest ≠ [] then ['\n'] else []) ++ ys)
          = scanHexBytes ys := by
      intro ys
      split
      · exact scanHex_append_noZero ['\n'] (by decide) ys
      · simp
    rw [hskip2, hskip3, scanHex_body ind hind rest (i + 1) tail]
    simp

theorem hexByteChars_count_nl (b : Fin 256) : List.count '\n' (hexByteChars b) = 0 := by
  have hlt := b.isLt
  have h1 : b.val / 16 < 16 := by omega
  have h2 : b.val % 16 < 16 := by omega
  have hne : ∀ n, n < 16 → hexDigitCh n ≠ '\n' := by decide
  simp only [hexByteChars]
  rw [List.count_eq_zero]
  intro hmem
  simp only [List.mem_cons, List.not_mem_nil, or_false] at hmem
  rcases hmem with h | h | h | h
  · exact absurd h.symm (by decide)
  · exact absurd h.symm (by decide)
  · exact (hne _ h1) h.symm
  · exact (hne _ h2) h.symm

theorem tabChars_count_nl (n : Nat) : List.count '\n' (tabChars n) = 0 := by
  rw [List.count_eq_zero]
  intro hmem
  simp only [tabChars] at hmem
  have := List.eq_of_mem_replicate hmem
  exact absurd this (by decide)

/-- Newlines inside the body: one after every full 12-byte row except the
last — the counting form of "wrapped at 12 bytes per row". -/
theorem byteBody_count_nl (ind : List Char) (hind : List.count '\n' ind = 0) :
    (l : List (Fin 256)) → ∀ (i : Nat), l ≠ [] →
      List.count '\n' (byteBodyChars ind i l) = (i + l.length - 1) / 12 - i / 12
  | [] => by intro i h; exact absurd rfl h
  | b :: rest => by
    intro i _
    rw [byteBodyChars]
    simp only [List.count_append, hexByteChars_count_nl]
    have hindc : List.count '\n' (if i % 12 = 0 then ind else []) = 0 := by
      split
      · exact hind
      · simp
    rw [hindc]
    cases rest with
    | nil =>
      simp only [byteBodyChars, List.length_cons, List.length_nil]
      norm_num
    | cons b2 rest2 =>
      have hrec := byteBody_count_nl ind hind (b2 :: rest2) (i + 1) (by simp)
      rw [hrec]
      have hsep : List.count '\n'
          (if (b2 :: rest2 : List (Fin 256)) ≠ [] then [',', ' '] else []) = 0 := by
        split
        · decide
        · simp
      rw [hsep]
      have hnl : List.count '\n'
          (if i % 12 = 11 ∧ (b2 :: rest2 : List (Fin 256)) ≠ [] then ['\n'] else [])
            = if i % 12 = 11 then 1 else 0 := by
        by_cases h : i % 12 = 11
        · simp [h]
        · simp [h]
      rw [hnl]
      simp only [List.length_cons]
      split
      · omega
      · omega

/-! ## Claim theorem: byte-array literals -/

/-- C6: decoding the emitted hex byte-array literal reproduces the exact
original byte sequence for every input; a sequence of length 0 emits the
empty literal, length 1 emits a single hex token with no separator
artifacts, and non-empty output carries one newline per full 12-byte row
plus the two fixed wrapper newlines (12 bytes per row). -/
theorem byte_literal_roundtrip (data : List (Fin 256)) (indent : Nat) :
    scanHexBytes (writeByteArrayChars data indent) = data.map Fin.val ∧
    (data = [] → writeByteArrayChars data indent = "[]byte\x7b\x7d".data) ∧
    (∀ b, data = [b] → writeByteArrayChars data indent
        = "[]byte\x7b\n".data ++ tabChars (indent + 1) ++ hexByteChars b
          ++ ",\n".data ++ tabChars indent ++ "\x7d".data) ∧
    (data ≠ [] → List.count '\n' (writeByteArrayChars data indent)
        = 2 + (data.length - 1) / 12) := by
  refine ⟨?_, ?_, ?_, ?_⟩
  · cases data with
    | nil =>
      rw [writeByteArrayChars, if_pos rfl]
      decide
    | cons b rest =>
      simp only [writeByteArrayChars, if_neg (by simp : ¬(b :: rest : List (Fin 256)) = [])]
      rw [List.append_assoc, List.append_assoc, List.append_assoc]
      rw [scanHex_append_noZero "[]byte\x7b\n".data (by decide) _]
      rw [scanHex_body (tabChars (indent + 1)) (tabChars_noZero (indent + 1)) (b :: rest) 0 _]
      rw [scanHex_append_noZero ",\n".data (by decide) _]
      rw [scanHex_append_noZero (tabChars indent) (tabChars_noZero indent) _]
      simp [scanHexBytes]
  · intro h
    subst h
    rfl
  · intro b h
    subst h
    simp only [writeByteArrayChars, if_neg (by simp : ¬([b] : List (Fin 256)) = [])]
    simp only [byteBodyChars]
    simp [List.append_assoc]
  · intro h
    cases data with
    | nil => exact absurd rfl h
    | cons b rest =>
      simp only [writeByteArrayChars, if_neg (by simp : ¬(b :: rest : List (Fin 256)) = [])]
      simp only [List.count_append]
      rw [byteBody_count_nl (tabChars (indent + 1)) (tabChars_count_nl (indent + 1))
        (b :: rest) 0 (by simp)]
      rw [tabChars_count_nl indent]
      have h1 : List.count '\n' "[]byte\x7b\n".data = 1 := by decide
      have h2 : List.count '\n' ",\n".data = 1 := by decide
      have h3 : List.count '\n' "\x7d".data = 0 := by decide
      rw [h1, h2, h3]
      simp only [List.length_cons]
      omega

/-- C6 witness. -/
theorem byte_literal_roundtrip_witness :
    scanHexBytes (writeByteArrayChars [(45 : Fin 256), (255 : Fin 256)] 1)
      = List.map Fin.val [(45 : Fin 256), (255 : Fin 256)] ∧
    writeByteArrayChars ([] : List (Fin 256)) 0 = "[]byte\x7b\x7d".data ∧
    writeByteArrayChars [(0 : Fin 256)] 2
      = "[]byte\x7b\n".data ++ tabChars 3 ++ hexByteChars (0 : Fin 256)
        ++ ",\n".data ++ tabChars 2 ++ "\x7d".data ∧
    List.count '\n' (writeByteArrayChars (List.replicate 13 (0 : Fin 256)) 0) = 3 := by
  refine ⟨(byte_literal_roundtrip [(45 : Fin 256), (255 : Fin 256)] 1).1,
    (byte_literal_roundtrip ([] : List (Fin 256)) 0).2.1 rfl,
    (byte_literal_roundtrip [(0 : Fin 256)] 2).2.2.1 (0 : Fin 256) rfl, ?_⟩
  have h := (byte_literal_roundtrip (List.replicate 13 (0 : Fin 256)) 0).2.2.2 (by decide)
  simpa using h

/-! ## Shape equivalence (for the path-only TypeName property)
Two trees are shape-equal when they differ at most in the scalar values
at their leaves: same keys in the same places, same container structure,
arbitrary leaf scalars. -/

def isLeaf : GoVal → Bool
  | .str _ => true
  | .int _ => true
  | .float _ => true
  | .bool _ => true
  | .other _ => true
  | _ => false

mutual
def shapeV : GoVal → GoVal → Bool
  | .table m1, .table m2 => shapeE m1 m2
  | .arr xs, .arr ys => shapeL xs ys
  | .arrTables t1, .arrTables t2 => shapeT t1 t2
  | .str _, w => isLeaf w
  | .int _, w => isLeaf w
  | .float _, w => isLeaf w
  | .bool _, w => isLeaf w
  | .other _, w => isLeaf w
  | _, _ => false
termination_by structural v _ => v
def shapeL : GoValList → GoValList → Bool
  | .nil, .nil => true
  | .cons x xs, .cons y ys => shapeV x y && shapeL xs ys
  | _, _ => false
termination_by structural l _ => l
def shapeE : GoEntries → GoEntries → Bool
  | .nil, .nil => true
  | .cons k1 v1 r1, .cons k2 v2 r2 => (k1 == k2) && shapeV v1 v2 && shapeE r1 r2
  | _, _ => false
termination_by structural e _ => e
def shapeT : GoTableList → GoTableList → Bool
  | .nil, .nil => true
  | .cons m1 t1, .cons m2 t2 => shapeE m1 m2 && shapeT t1 t2
  | _, _ => false
termination_by structural t _ => t
end

theorem sizeV_pos (v : GoVal) : 0 < sizeV v := by
  cases v <;> simp [sizeV]

theorem containsName_congr :
    (s1 : List (String × GoEntries)) → ∀ (s2 : List (String × GoEntries)) (n : String),
      s1.map Prod.fst = s2.map Prod.fst → containsName s1 n = containsName s2 n
  | [] => by
    intro s2 n h
    cases s2 with
    | nil => rfl
    | cons p s2' => simp at h
  | (k1, m1) :: s1' => by
    intro s2 n h
    cases s2 with
    | nil => simp at h
    | cons p s2' =>
      obtain ⟨k2, m2⟩ := p
      simp only [List.map_cons, List.cons.injEq] at h
      simp only [containsName, h.1, containsName_congr s1' s2' n h.2]

theorem shapeE_keys :
    (t1 : GoEntries) → ∀ (t2 : GoEntries), shapeE t1 t2 = true →
      keysOfEntries t1 = keysOfEntries t2
  | .nil => by
    intro t2 h
    cases t2 with
    | nil => rfl
    | cons k v r => simp [shapeE] at h
  | .cons k1 v1 r1 => by
    intro t2 h
    cases t2 with
    | nil => simp [shapeE] at h
    | cons k2 v2 r2 =>
      simp only [shapeE, Bool.and_eq_true, beq_iff_eq] at h
      obtain ⟨⟨hk, _⟩, hr⟩ := h
      simp [keysOfEntries, hk, shapeE_keys r1 r2 hr]

theorem shapeE_lookup :
    (t1 : GoEntries) → ∀ (t2 : GoEntries) (k : String), shapeE t1 t2 = true →
      (lookupEntry t1 k = none ∧ lookupEntry t2 k = none) ∨
      (∃ v1 v2, lookupEntry t1 k = some v1 ∧ lookupEntry t2 k = some v2 ∧
        shapeV v1 v2 = true)
  | .nil => by
    intro t2 k h
    cases t2 with
    | nil => exact Or.inl ⟨rfl, rfl⟩
    | cons k2 v2 r2 => simp [shapeE] at h
  | .cons k1 v1 r1 => by
    intro t2 k h
    cases t2 with
    | nil => simp [shapeE] at h
    | cons k2 v2 r2 =>
      simp only [shapeE, Bool.and_eq_true, beq_iff_eq] at h
      obtain ⟨⟨hk, hv⟩, hr⟩ := h
      subst hk
      by_cases hkk : k1 = k
      · right
        exact ⟨v1, v2, by simp [lookupEntry, hkk], by simp [lookupEntry, hkk], hv⟩
      · have := shapeE_lookup r1 r2 k hr
        simpa [lookupEntry, hkk] using this

/-- Shape-equal trees and name-equal accumulators produce name-equal
catalogs: the entry loop of `collectNestedStructs` never inspects leaf
scalar values. -/
theorem collectFields_names (n : Nat) :
    ∀ (e1 e2 : GoEntries) (s1 s2 : List (String × GoEntries)) (name : String),
      sizeE e1 ≤ n → shapeE e1 e2 = true → s1.map Prod.fst = s2.map Prod.fst →
      (collectFields s1 name e1).map Prod.fst = (collectFields s2 name e2).map Prod.fst := by
  induction n using Nat.strong_induction_on with
  | _ n ih =>
  intro e1 e2 s1 s2 name hsz hsh hmap
  have hcollect : ∀ (m m' : GoEntries) (u1 u2 : List (String × GoEntries)) (n0 : String),
      sizeE m < n → shapeE m m' = true → u1.map Prod.fst = u2.map Prod.fst →
      (if containsName u1 n0 then u1
        else collectFields (u1 ++ [(n0, m)]) n0 m).map Prod.fst
      = (if containsName u2 n0 then u2
        else collectFields (u2 ++ [(n0, m')]) n0 m').map Prod.fst := by
    intro m m' u1 u2 n0 hlt hm hu
    rw [containsName_congr u1 u2 n0 hu]
    by_cases hc : containsName u2 n0 = true
    · rw [if_pos hc, if_pos hc]
      exact hu
    · rw [if_neg hc, if_neg hc]
      exact ih (sizeE m) hlt m m' (u1 ++ [(n0, m)]) (u2 ++ [(n0, m')]) n0 le_rfl hm
        (by simp [hu])
  cases e1 with
  | nil =>
    cases e2 with
    | nil => simpa [collectFields] using hmap
    | cons k2 v2 r2 => simp [shapeE] at hsh
  | cons k v r =>
    cases e2 with
    | nil => simp [shapeE] at hsh
    | cons k2 v2 r2 =>
      simp only [shapeE, Bool.and_eq_true, beq_iff_eq] at hsh
      obtain ⟨⟨hk, hv⟩, hr⟩ := hsh
      subst hk
      have hszr : sizeE r < n := by
        have := sizeV_pos v
        simp only [sizeE] at hsz
        omega
      cases v with
      | str sa =>
        cases v2 with
        | str sb =>
          simp only [collectFields]
          exact ih (sizeE r) hszr r r2 s1 s2 name le_rfl hr hmap
        | int nb =>
          simp only [collectFields]
          exact ih (sizeE r) hszr r r2 s1 s2 name le_rfl hr hmap
        | float fb =>
          simp only [collectFields]
          exact ih (sizeE r) hszr r r2 s1 s2 name le_rfl hr hmap
        | bool bb =>
          simp only [collectFields]
          exact ih (sizeE r) hszr r r2 s1 s2 name le_rfl hr hmap
        | other tb =>
          simp only [collectFields]
          exact ih (sizeE r) hszr r r2 s1 s2 name le_rfl hr hmap
        | arr ys =>
          simp [shapeV, isLeaf] at hv
        | table mb =>
          simp [shapeV, isLeaf] at hv
        | arrTables tsb =>
          simp [shapeV, isLeaf] at hv
      | int na =>
        cases v2 with
        | str sb =>
          simp only [collectFields]
          exact ih (sizeE r) hszr r r2 s1 s2 name le_rfl hr hmap
        | int nb =>
          simp only [collectFields]
          exact ih (sizeE r) hszr r r2 s1 s2 name le_rfl hr hmap
        | float fb =>
          simp only [collectFields]
          exact ih (sizeE r) hszr r r2 s1 s2 name le_rfl hr hmap
        | bool bb =>
          simp only [collectFields]
          exact ih (sizeE r) hszr r r2 s1 s2 name le_rfl hr hmap
        | other tb =>
          simp only [collectFields]
          exact ih (sizeE r) hszr r r2 s1 s2 name le_rfl hr hmap
        | arr ys =>
          simp [shapeV, isLeaf] at hv
        | table mb =>
          simp [shapeV, isLeaf] at hv
        | arrTables tsb =>
          simp [shapeV, isLeaf] at hv
      | float fa =>
        cases v2 with
        | str sb =>
          simp only [collectFields]
          exact ih (sizeE r) hszr r r2 s1 s2 name le_rfl hr hmap
        | int nb =>
          simp only [collectFields]
          exact ih (sizeE r) hszr r r2 s1 s2 name le_rfl hr hmap
        | float fb =>
          simp only [collectFields]
          exact ih (sizeE r) hszr r r2 s1 s2 name le_rfl hr hmap
        | bool bb =>
          simp only [collectFields]
          exact ih (sizeE r) hszr r r2 s1 s2 name le_rfl hr hmap
        | other tb =>
          simp only [collectFields]
          exact ih (sizeE r) hszr r r2 s1 s2 name le_rfl hr hmap
        | arr ys =>
          simp [shapeV, isLeaf] at hv
        | table mb =>
          simp [shapeV, isLeaf] at hv
        | arrTables tsb =>
          simp [shapeV, isLeaf] at hv
      | bool ba =>
        cases v2 with
        | str sb =>
          simp only [collectFields]
          exact ih (sizeE r) hszr r r2 s1 s2 name le_rfl hr hmap
        | int nb =>
          simp only [collectFields]
          exact ih (sizeE r) hszr r r2 s1 s2 name le_rfl hr hmap
        | float fb =>
          simp only [collectFields]
          exact ih (sizeE r) hszr r r2 s1 s2 name le_rfl hr hmap
        | bool bb =>
          simp only [collectFields]
          exact ih (sizeE r) hszr r r2 s1 s2 name le_rfl hr hmap
        | other tb =>
          simp only [collectFields]
          exact ih (sizeE r) hszr r r2 s1 s2 name le_rfl hr hmap
        | arr ys =>
          simp [shapeV, isLeaf] at hv
        | table mb =>
          simp [shapeV, isLeaf] at hv
        | arrTables tsb =>
          simp [shapeV, isLeaf] at hv
      | other ta =>
        cases v2 with
        | str sb =>
          simp only [collectFields]
          exact ih (sizeE r) hszr r r2 s1 s2 name le_rfl hr hmap
        | int nb =>
          simp only [collectFields]
          exact ih (sizeE r) hszr r r2 s1 s2 name le_rfl hr hmap
        | float fb =>
          simp only [collectFields]
          exact ih (sizeE r) hszr r r2 s1 s2 name le_rfl hr hmap
        | bool bb =>
          simp only [collectFields]
          exact ih (sizeE r) hszr r r2 s1 s2 name le_rfl hr hmap
        | other tb =>
          simp only [collectFields]
          exact ih (sizeE r) hszr r r2 s1 s2 name le_rfl hr hmap
        | arr ys =>
          simp [shapeV, isLeaf] at hv
        | table mb =>
          simp [shapeV, isLeaf] at hv
        | arrTables tsb =>
          simp [shapeV, isLeaf] at hv
      | table m =>
        cases v2 with
        | table m2 =>
          simp only [shapeV] at hv
          have hszm : sizeE m < n := by
            simp only [sizeE, sizeV] at hsz
            omega
          simp only [collectFields]
          exact ih (sizeE r) hszr r r2 _ _ name le_rfl hr
            (hcollect m m2 s1 s2 (stripSuffix name ++ pascalCase k ++ "Config") hszm hv hmap)
        | str sb =>
          simp [shapeV, isLeaf] at hv
        | int nb =>
          simp [shapeV, isLeaf] at hv
        | float fb =>
          simp [shapeV, isLeaf] at hv
        | bool bb =>
          simp [shapeV, isLeaf] at hv
        | other tb =>
          simp [shapeV, isLeaf] at hv
        | arr ys =>
          simp [shapeV, isLeaf] at hv
        | arrTables tsb =>
          simp [shapeV, isLeaf] at hv
      | arr xs =>
        cases v2 with
        | arr ys =>
          simp only [shapeV] at hv
          cases xs with
          | nil =>
            cases ys with
            | nil =>
              simp only [collectFields]
              exact ih (sizeE r) hszr r r2 s1 s2 name le_rfl hr hmap
            | cons y ys2 => simp [shapeL] at hv
          | cons x xs2 =>
            cases ys with
            | nil => simp [shapeL] at hv
            | cons y ys2 =>
              simp only [shapeL, Bool.and_eq_true] at hv
              obtain ⟨hxy, htl⟩ := hv
              cases x with
              | table m =>
                cases y with
                | table m2 =>
                  simp only [shapeV] at hxy
                  have hszm : sizeE m < n := by
                    simp only [sizeE, sizeV, sizeL] at hsz
                    omega
                  simp only [collectFields]
                  exact ih (sizeE r) hszr r r2 _ _ name le_rfl hr
                    (hcollect m m2 s1 s2 (stripSuffix name ++ pascalCase k ++ "Item")
                      hszm hxy hmap)
                | str sb =>
                  simp [shapeV] at hxy
                | int nb =>
                  simp [shapeV] at hxy
                | float fb =>
                  simp [shapeV] at hxy
                | bool bb =>
                  simp [shapeV] at hxy
                | other tb =>
                  simp [shapeV] at hxy
                | arr zs =>
                  simp [shapeV] at hxy
                | arrTables tsb =>
                  simp [shapeV] at hxy
              | str sa =>
                cases y <;> simp [shapeV, isLeaf] at hxy <;>
                  simp only [collectFields] <;>
                  exact ih (sizeE r) hszr r r2 s1 s2 name le_rfl hr hmap
              | int na =>
                cases y <;> simp [shapeV, isLeaf] at hxy <;>
                  simp only [collectFields] <;>
                  exact ih (sizeE r) hszr r r2 s1 s2 name le_rfl hr hmap
              | float fa =>
                cases y <;> simp [shapeV, isLeaf] at hxy <;>
                  simp only [collectFields] <;>
                  exact ih (sizeE r) hszr r r2 s1 s2 name le_rfl hr hmap
              | bool ba =>
                cases y <;> simp [shapeV, isLeaf] at hxy <;>
                  simp only [collectFields] <;>
                  exact ih (sizeE r) hszr r r2 s1 s2 name le_rfl hr hmap
              | other ta =>
                cases y <;> simp [shapeV, isLeaf] at hxy <;>
                  simp only [collectFields] <;>
                  exact ih (sizeE r) hszr r r2 s1 s2 name le_rfl hr hmap
              | arr xzs =>
                cases y <;> simp [shapeV, isLeaf] at hxy <;>
                  simp only [collectFields] <;>
                  exact ih (sizeE r) hszr r r2 s1 s2 name le_rfl hr hmap
              | arrTables xts =>
                cases y <;> simp [shapeV, isLeaf] at hxy <;>
                  simp only [collectFields] <;>
                  exact ih (sizeE r) hszr r r2 s1 s2 name le_rfl hr hmap
        | str sb =>
          simp [shapeV, isLeaf] at hv
        | int nb =>
          simp [shapeV, isLeaf] at hv
        | float fb =>
          simp [shapeV, isLeaf] at hv
        | bool bb =>
          simp [shapeV, isLeaf] at hv
        | other tb =>
          simp [shapeV, isLeaf] at hv
        | table mb =>
          simp [shapeV, isLeaf] at hv
        | arrTables tsb =>
          simp [shapeV, isLeaf] at hv
      | arrTables ts =>
        cases v2 with
        | arrTables ts2 =>
          simp only [shapeV] at hv
          cases ts with
          | nil =>
            cases ts2 with
            | nil =>
              simp only [collectFields]
              exact ih (sizeE r) hszr r r2 s1 s2 name le_rfl hr hmap
            | cons m2 ts2b => simp [shapeT] at hv
          | cons m tsb =>
            cases ts2 with
            | nil => simp [shapeT] at hv
            | cons m2 ts2b =>
              simp only [shapeT, Bool.and_eq_true] at hv
              obtain ⟨hm, _⟩ := hv
              have hszm : sizeE m < n := by
                simp only [sizeE, sizeV, sizeT] at hsz
                omega
              simp only [collectFields]
              exact ih (sizeE r) hszr r r2 _ _ name le_rfl hr
                (hcollect m m2 s1 s2 (stripSuffix name ++ pascalCase k ++ "Item")
                  hszm hm hmap)
        | str sb =>
          simp [shapeV, isLeaf] at hv
        | int nb =>
          simp [shapeV, isLeaf] at hv
        | float fb =>
          simp [shapeV, isLeaf] at hv
        | bool bb =>
          simp [shapeV, isLeaf] at hv
        | other tb =>
          simp [shapeV, isLeaf] at hv
        | table mb =>
          simp [shapeV, isLeaf] at hv
        | arr ys =>
          simp [shapeV, isLeaf] at hv

theorem collectNestedStructs_names (m m' : GoEntries)
    (acc1 acc2 : List (String × GoEntries)) (name : String)
    (hm : shapeE m m' = true) (h : acc1.map Prod.fst = acc2.map Prod.fst) :
    (collectNestedStructs acc1 name m).map Prod.fst
      = (collectNestedStructs acc2 name m').map Prod.fst := by
  simp only [collectNestedStructs]
  rw [containsName_congr acc1 acc2 name h]
  by_cases hc : containsName acc2 name = true
  · rw [if_pos hc, if_pos hc]
    exact h
  · rw [if_neg hc, if_neg hc]
    exact collectFields_names (sizeE m) m m' _ _ name le_rfl hm (by simp [h])

theorem collectTop_names (d1 d2 : GoEntries) (hsh : shapeE d1 d2 = true) :
    ∀ (keys : List String) (acc1 acc2 : List (String × GoEntries)),
      acc1.map Prod.fst = acc2.map Prod.fst →
      (collectTopAux d1 acc1 keys).map Prod.fst
        = (collectTopAux d2 acc2 keys).map Prod.fst := by
  intro keys
  induction keys with
  | nil => intro acc1 acc2 h; simpa [collectTopAux] using h
  | cons k rest ihk =>
    intro acc1 acc2 h
    simp only [collectTopAux]
    apply ihk
    rcases shapeE_lookup d1 d2 k hsh with ⟨h1, h2⟩ | ⟨v1, v2, h1, h2, hv⟩
    · rw [h1, h2]
      exact h
    · rw [h1, h2]
      cases v1 with
      | table m =>
        cases v2 with
        | table m2 =>
          simp only [shapeV] at hv
          exact collectNestedStructs_names m m2 acc1 acc2 _ hv h
        | str x => simp [shapeV, isLeaf] at hv
        | int x => simp [shapeV, isLeaf] at hv
        | float x => simp [shapeV, isLeaf] at hv
        | bool x => simp [shapeV, isLeaf] at hv
        | other x => simp [shapeV, isLeaf] at hv
        | arr x => simp [shapeV, isLeaf] at hv
        | arrTables x => simp [shapeV, isLeaf] at hv
      | arrTables ts =>
        cases v2 with
        | arrTables ts2 =>
          simp only [shapeV] at hv
          cases ts with
          | nil =>
            cases ts2 with
            | nil => exact h
            | cons m2 ts2b => simp [shapeT] at hv
          | cons m tsb =>
            cases ts2 with
            | nil => simp [shapeT] at hv
            | cons m2 ts2b =>
              simp only [shapeT, Bool.and_eq_true] at hv
              exact collectNestedStructs_names m m2 acc1 acc2 _ hv.1 h
        | str x => simp [shapeV, isLeaf] at hv
        | int x => simp [shapeV, isLeaf] at hv
        | float x => simp [shapeV, isLeaf] at hv
        | bool x => simp [shapeV, isLeaf] at hv
        | other x => simp [shapeV, isLeaf] at hv
        | arr x => simp [shapeV, isLeaf] at hv
        | table x => simp [shapeV, isLeaf] at hv
      | arr xs =>
        cases v2 with
        | arr ys => exact h
        | str x => simp [shapeV, isLeaf] at hv
        | int x => simp [shapeV, isLeaf] at hv
        | float x => simp [shapeV, isLeaf] at hv
        | bool x => simp [shapeV, isLeaf] at hv
        | other x => simp [shapeV, isLeaf] at hv
        | table x => simp [shapeV, isLeaf] at hv
        | arrTables x => simp [shapeV, isLeaf] at hv
      | str x =>
        cases v2 <;> simp [shapeV, isLeaf] at hv <;> exact h
      | int x =>
        cases v2 <;> simp [shapeV, isLeaf] at hv <;> exact h
      | float x =>
        cases v2 <;> simp [shapeV, isLeaf] at hv <;> exact h
      | bool x =>
        cases v2 <;> simp [shapeV, isLeaf] at hv <;> exact h
      | other x =>
        cases v2 <;> simp [shapeV, isLeaf] at hv <;> exact h

/-! ## Claim theorem: path-only TypeNames -/

/-- C1: the lexicographically sorted list of generated TypeNames is a
function of the tree's key structure alone — two trees that are identical
except for the scalar values at their leaves produce identical sorted
TypeName lists.  (Repeated runs on the same tree trivially agree: the
collector is a pure function of the tree, with the catalog an explicit
accumulator.) -/
theorem typeNames_function_of_shape (t1 t2 : GoEntries) (hsh : shapeE t1 t2 = true) :
    typeNamesSorted t1 = typeNamesSorted t2 := by
  have hkeys : keysOfEntries t1 = keysOfEntries t2 := shapeE_keys t1 t2 hsh
  have hfold := collectTop_names t1 t2 hsh (sortStrings (keysOfEntries t1)) [] [] rfl
  simp only [typeNamesSorted, collectTop]
  rw [← hkeys]
  exact congrArg sortStrings hfold

/-- C1 witness: same key structure, different scalar leaf values (one
leaf even changes scalar kind); the TypeName catalogs coincide. -/
theorem typeNames_function_of_shape_witness :
    shapeE
      (.cons "server" (.table (.cons "addr" (.str ":8080")
        (.cons "timeout" (.str "30s") .nil))) .nil)
      (.cons "server" (.table (.cons "addr" (.str ":9090")
        (.cons "timeout" (.int 42) .nil))) .nil) = true ∧
    typeNamesSorted
      (.cons "server" (.table (.cons "addr" (.str ":8080")
        (.cons "timeout" (.str "30s") .nil))) .nil)
      = typeNamesSorted
        (.cons "server" (.table (.cons "addr" (.str ":9090")
          (.cons "timeout" (.int 42) .nil))) .nil) ∧
    typeNamesSorted
      (.cons "server" (.table (.cons "addr" (.str ":8080")
        (.cons "timeout" (.str "30s") .nil))) .nil) = ["ServerConfig"] :=
  ⟨rfl, typeNames_function_of_shape _ _ rfl, rfl⟩

/-! ## Claim theorem: validate-then-emit -/

/-- C2: every generation-time failure — input read/parse failure,
environment-override conversion failure, or file-reference validation
failure (not found / size exceeded / read failure all surface through
`validateFileReferences`) — makes `GenerateFromFile` return an error with
the output file neither created nor modified; and whenever the output
file changes, the run returned success and the file-reference validation
pre-pass had succeeded on the emitted tree (validate-then-emit). -/
theorem generateFromFile_validate_then_emit (opts : GenOptions) (w : GenWorld) :
    (∀ e, opts.outputFile ≠ "" → w.parseResult = .error e →
      (∃ m, (generateFromFile opts w).1 = .error m) ∧
      (generateFromFile opts w).2.output = w.output) ∧
    (∀ t e, opts.outputFile ≠ "" → w.parseResult = .ok t →
      opts.enableEnv = true → apply w.env t = .error e →
      (∃ m, (generateFromFile opts w).1 = .error m) ∧
      (generateFromFile opts w).2.output = w.output) ∧
    (∀ t data2 e, opts.outputFile ≠ "" → w.parseResult = .ok t →
      (if opts.enableEnv then apply w.env t else .ok t) = .ok data2 →
      validateFileReferences (genOf opts w) data2 = .error e →
      (∃ m, (generateFromFile opts w).1 = .error m) ∧
      (generateFromFile opts w).2.output = w.output) ∧
    ((generateFromFile opts w).2.output ≠ w.output →
      (generateFromFile opts w).1 = .ok () ∧
      ∃ t data2, w.parseResult = .ok t ∧
        (if opts.enableEnv then apply w.env t else .ok t) = .ok data2 ∧
        validateFileReferences (genOf opts w) data2 = .ok ()) := by
  refine ⟨?_, ?_, ?_, ?_⟩
  · intro e ho hp
    rw [gff_parse_error opts w e ho hp]
    exact ⟨⟨_, rfl⟩, rfl⟩
  · intro t e ho hp henv ha
    rw [gff_env_error opts w t e ho hp henv ha]
    exact ⟨⟨_, rfl⟩, rfl⟩
  · intro t data2 e ho hp hres hval
    have hpipe : generatePipeline (genOf opts w) (modeOf opts) data2 = .error e := by
      simp [generatePipeline, hval]
    rw [gff_pipeline_error opts w t data2 e ho hp hres hpipe]
    exact ⟨⟨_, rfl⟩, rfl⟩
  · intro hout
    cases hres : (generateFromFile opts w).1 with
    | error m =>
      have hw := gff_error_world opts w m hres
      rw [hw] at hout
      exact absurd rfl hout
    | ok u =>
      cases u
      obtain ⟨t, data2, code, hp, hres2, hgen, hval, _⟩ := gff_ok_shape opts w hres
      exact ⟨rfl, t, data2, hp, hres2, hval⟩

/-- C2 witness: the four conjuncts exercised at concrete worlds — a parse
failure, a failing float override, a missing `file:` reference, and a
successful run that writes the output. -/
theorem generateFromFile_validate_then_emit_witness :
    ((∃ m, (generateFromFile
        { outputFile := "out.go", enableEnv := true, mode := "", maxFileSize := 0, inputDir := "" }
        { parseResult := .error "boom", env := fun _ => "", fs := fun _ => none,
          output := none }).1 = .error m) ∧
      (generateFromFile
        { outputFile := "out.go", enableEnv := true, mode := "", maxFileSize := 0, inputDir := "" }
        { parseResult := .error "boom", env := fun _ => "", fs := fun _ => none,
          output := none }).2.output = none) ∧
    ((∃ m, (generateFromFile
        { outputFile := "out.go", enableEnv := true, mode := "", maxFileSize := 0, inputDir := "" }
        { parseResult := .ok (.cons "cache" (.table (.cons "ttl" (.float "0.5") .nil)) .nil),
          env := fun k => if k = "CONFIG_CACHE_TTL" then "not-a-float" else "",
          fs := fun _ => none, output := some "old" }).1 = .error m) ∧
      (generateFromFile
        { outputFile := "out.go", enableEnv := true, mode := "", maxFileSize := 0, inputDir := "" }
        { parseResult := .ok (.cons "cache" (.table (.cons "ttl" (.float "0.5") .nil)) .nil),
          env := fun k => if k = "CONFIG_CACHE_TTL" then "not-a-float" else "",
          fs := fun _ => none, output := some "old" }).2.output = some "old") ∧
    ((∃ m, (generateFromFile
        { outputFile := "out.go", enableEnv := true, mode := "", maxFileSize := 0, inputDir := "" }
        { parseResult := .ok (.cons "content" (.str "file:missing.txt") .nil),
          env := fun _ => "", fs := fun _ => none, output := none }).1 = .error m) ∧
      (generateFromFile
        { outputFile := "out.go", enableEnv := true, mode := "", maxFileSize := 0, inputDir := "" }
        { parseResult := .ok (.cons "content" (.str "file:missing.txt") .nil),
          env := fun _ => "", fs := fun _ => none, output := none }).2.output = none) ∧
    ((generateFromFile
        { outputFile := "out.go", enableEnv := true, mode := "", maxFileSize := 0, inputDir := "" }
        { parseResult := .ok (.cons "port" (.int 8080) .nil),
          env := fun _ => "", fs := fun _ => none, output := none }).1 = .ok () ∧
      ∃ t data2,
        (Except.ok (.cons "port" (.int 8080) .nil) : Except String GoEntries) = .ok t ∧
        (if true then apply (fun _ => "") t else .ok t) = .ok data2 ∧
        validateFileReferences
          (genOf
            { outputFile := "out.go", enableEnv := true, mode := "", maxFileSize := 0, inputDir := "" }
            { parseResult := .ok (.cons "port" (.int 8080) .nil),
              env := fun _ => "", fs := fun _ => none, output := none }) data2 = .ok ()) := by
  refine ⟨?_, ?_, ?_, ?_⟩
  · exact (generateFromFile_validate_then_emit _ _).1 "boom" (by decide) rfl
  · exact (generateFromFile_validate_then_emit _ _).2.1 _
      ("error in section cache: invalid value for CONFIG_CACHE_TTL: expected float: strconv.ParseFloat: parsing \"not-a-float\": invalid syntax")
      (by decide) rfl rfl rfl
  · exact (generateFromFile_validate_then_emit _ _).2.2.1 _ _
      ("file not found: missing.txt (referenced in config)") (by decide) rfl rfl rfl
  · have h := (generateFromFile_validate_then_emit
      { outputFile := "out.go", enableEnv := true, mode := "", maxFileSize := 0, inputDir := "" }
      { parseResult := .ok (.cons "port" (.int 8080) .nil),
        env := fun _ => "", fs := fun _ => none, output := none }).2.2.2 (by decide)
    exact ⟨h.1, h.2⟩

/-! ## Getter-mode array accessors (struct_gen.go `generateGetterMethods`) -/

/-- Membership of a key/value binding among a table's entries. -/
def entryMem (k : String) (v : GoVal) : GoEntries → Prop
  | .nil => False
  | .cons k2 v2 rest => (k = k2 ∧ v = v2) ∨ entryMem k v rest

/-- The accessor `generateGetterMethod` emits for an array-of-scalars
field: the environment check contains only an explanatory comment — no
override path — and the method returns the generation-time literal of
the default value. -/
def getterScalarArrayText (g : Gen) (structName goFieldName goType envKey : String)
    (v : GoVal) : String :=
  ("func (" ++ structName ++ ") " ++ goFieldName ++ "() " ++ goType ++ " \x7b\n")
    ++ "\tif v := os.Getenv(" ++ goQuote envKey ++ "); v != \"\" \x7b\n"
    ++ "\t\t// Array overrides not supported via env vars\n"
    ++ "\t\x7d\n"
    ++ "\treturn " ++ writeValueWithIndent g v 0 ++ "\n"
    ++ "\x7d\n\n"

/-- A generator state with no file system access (no `file:` reference
is involved in the getter-mode array theorems). -/
def gNone : Gen := { fs := fun _ => none, inputDir := "", maxFileSize := 1048576 }

theorem cons_ne_of_head {a b : Char} {l m : List Char} (h : a ≠ b) : a :: l ≠ b :: m := by
  intro he
  injection he with h1 _
  exact h h1

/-- toGoType never yields the bare token `byte`, so array element types
prefixed with `[]` can never collide with the `[]byte` special case. -/
theorem toGoType_ne_byte : (v : GoVal) → toGoType v ≠ "byte"
  | .str s => by simp only [toGoType]; split_ifs <;> decide
  | .int _ => by simp only [toGoType]; decide
  | .float _ => by simp only [toGoType]; decide
  | .bool _ => by simp only [toGoType]; decide
  | .other _ => by simp only [toGoType]; decide
  | .table _ => by simp only [toGoType]; decide
  | .arrTables _ => by simp only [toGoType]; decide
  | .arr .nil => by simp only [toGoType]; decide
  | .arr (.cons x tl) => by
    simp only [toGoType]
    intro h
    have hd := congrArg String.data h
    rw [String.data_append] at hd
    simp at hd

/-- The Go type of an array value begins with `[]` and is none of the
specially handled scalar getter types. -/
theorem toGoType_arr_facts (xs : GoValList) :
    strBeginsWith (toGoType (.arr xs)) "[]" = true
    ∧ toGoType (.arr xs) ≠ "[]byte"
    ∧ toGoType (.arr xs) ≠ "string"
    ∧ toGoType (.arr xs) ≠ "int64"
    ∧ toGoType (.arr xs) ≠ "float64"
    ∧ toGoType (.arr xs) ≠ "bool"
    ∧ toGoType (.arr xs) ≠ "time.Duration" := by
  cases xs with
  | nil =>
    exact ⟨by decide, by decide, by decide, by decide, by decide, by decide, by decide⟩
  | cons x tl =>
    have harr : toGoType (.arr (.cons x tl)) = "[]" ++ toGoType x := rfl
    have hdata : ∀ u : String, toGoType (.arr (.cons x tl)) = u →
        '[' :: ']' :: (toGoType x).data = u.data := by
      intro u hu
      rw [harr] at hu
      have := congrArg String.data hu
      rw [String.data_append] at this
      simpa using this
    refine ⟨?_, ?_, ?_, ?_, ?_, ?_, ?_⟩
    · rw [harr]
      simp [strBeginsWith, String.data_append, charsBeginWith,
        show ("[]" : String).data = ['[', ']'] from rfl]
    · intro h
      have hd := hdata _ h
      have hd2 : (toGoType x).data = ("byte" : String).data := by
        have h3 : '[' :: ']' :: (toGoType x).data = '[' :: ']' :: ("byte" : String).data := hd
        injection h3 with _ h4
        injection h4 with _ h5
      exact toGoType_ne_byte x (congrArg String.mk hd2)
    · exact fun h => cons_ne_of_head (by decide)
        (show '[' :: (']' :: (toGoType x).data) = 's' :: ['t', 'r', 'i', 'n', 'g'] from hdata _ h)
    · exact fun h => cons_ne_of_head (by decide)
        (show '[' :: (']' :: (toGoType x).data) = 'i' :: ['n', 't', '6', '4'] from hdata _ h)
    · exact fun h => cons_ne_of_head (by decide)
        (show '[' :: (']' :: (toGoType x).data) = 'f' :: ['l', 'o', 'a', 't', '6', '4']
          from hdata _ h)
    · exact fun h => cons_ne_of_head (by decide)
        (show '[' :: (']' :: (toGoType x).data) = 'b' :: ['o', 'o', 'l'] from hdata _ h)
    · exact fun h => cons_ne_of_head (by decide)
        (show '[' :: (']' :: (toGoType x).data)
            = 't' :: ['i', 'm', 'e', '.', 'D', 'u', 'r', 'a', 't', 'i', 'o', 'n']
          from hdata _ h)

/-- On any array default, `generateGetterMethod` emits the fixed
"no override" accessor: every scalar parse branch is skipped and the
`[]`-prefixed branch inserts only a comment. -/
theorem generateGetterMethod_arr (g : Gen) (s f k : String) (xs : GoValList) :
    generateGetterMethod g s f (toGoType (.arr xs)) k (.arr xs)
      = getterScalarArrayText g s f (toGoType (.arr xs)) k (.arr xs) := by
  obtain ⟨hpfx, hbyte, h1, h2, h3, h4, h5⟩ := toGoType_arr_facts xs
  simp only [generateGetterMethod, getterScalarArrayText]
  rw [if_neg hbyte, if_neg h1, if_neg h2, if_neg h3, if_neg h4, if_neg h5, if_pos hpfx]

/-- Head step of the getter loop on an array-of-scalars field: the
fixed no-override accessor, then the rest of the fields. -/
theorem getterFields_cons_arrScalar (g : Gen) (structName fieldName envPfx : String)
    (generated : List String) (x : GoVal) (tl : GoValList) (rest : GoEntries)
    (hx : ∀ m, x ≠ GoVal.table m) :
    (getterFields g structName (.cons fieldName (.arr (.cons x tl)) rest) envPfx generated).1
      = getterScalarArrayText g structName (pascalCase fieldName)
          (toGoType (.arr (.cons x tl))) (getterEnvKey structName envPfx fieldName)
          (.arr (.cons x tl))
        ++ (getterFields g structName rest envPfx generated).1 := by
  rw [← generateGetterMethod_arr]
  rcases hrest : getterFields g structName rest envPfx generated with ⟨restTxt, gen1⟩
  cases x with
  | table m => exact absurd rfl (hx m)
  | str s => simp only [getterFields, hrest]
  | int n => simp only [getterFields, hrest]
  | float r => simp only [getterFields, hrest]
  | bool b => simp only [getterFields, hrest]
  | other o => simp only [getterFields, hrest]
  | arr ys => simp only [getterFields, hrest]
  | arrTables ts => simp only [getterFields, hrest]

/-- Head step on an array (`[]any`) whose first element is a table: the
fixed `return nil` accessor, then the rest of the fields. -/
theorem getterFields_cons_arrTable (g : Gen) (structName fieldName envPfx : String)
    (generated : List String) (m : GoEntries) (tl : GoValList) (rest : GoEntries) :
    (getterFields g structName (.cons fieldName (.arr (.cons (.table m) tl)) rest)
        envPfx generated).1
      = getterArrayOfStructsText structName (pascalCase fieldName)
          (stripSuffix structName ++ pascalCase fieldName ++ "Item")
        ++ (getterFields g structName rest envPfx generated).1 := by
  rcases hrest : getterFields g structName rest envPfx generated with ⟨restTxt, gen1⟩
  simp only [getterFields, hrest]

/-- Head step on a non-empty `[]map[string]any` field: the fixed
`return nil` accessor, then the rest of the fields. -/
theorem getterFields_cons_arrTables (g : Gen) (structName fieldName envPfx : String)
    (generated : List String) (t : GoEntries) (ts : GoTableList) (rest : GoEntries) :
    (getterFields g structName (.cons fieldName (.arrTables (.cons t ts)) rest)
        envPfx generated).1
      = getterArrayOfStructsText structName (pascalCase fieldName)
          (stripSuffix structName ++ pascalCase fieldName ++ "Item")
        ++ (getterFields g structName rest envPfx generated).1 := by
  rcases hrest : getterFields g structName rest envPfx generated with ⟨restTxt, gen1⟩
  simp only [getterFields, hrest]

/-- Generic head step: whatever the first field is, the loop's text is
some head text followed by the loop on the remaining fields (with a
possibly extended set of generated struct names). -/
theorem getterFields_cons_decomp (g : Gen) (structName fieldName envPfx : String)
    (generated : List String) (v : GoVal) (rest : GoEntries) :
    ∃ hd gen1,
      (getterFields g structName (.cons fieldName v rest) envPfx generated).1
        = hd ++ (getterFields g structName rest envPfx gen1).1 := by
  cases v with
  | table m =>
    rcases hsub : getterMethods g (stripSuffix structName ++ pascalCase fieldName ++ "Config") m
        (getterEnvKey structName envPfx fieldName) generated with ⟨sub, gen1⟩
    rcases hrest : getterFields g structName rest envPfx gen1 with ⟨restTxt, gen2⟩
    exact ⟨_, gen1, by simp only [getterFields, hsub, hrest]; rw [← String.append_assoc]⟩
  | str s =>
    rcases hrest : getterFields g structName rest envPfx generated with ⟨restTxt, gen1⟩
    exact ⟨_, generated, by simp only [getterFields, hrest]; rfl⟩
  | int n =>
    rcases hrest : getterFields g structName rest envPfx generated with ⟨restTxt, gen1⟩
    exact ⟨_, generated, by simp only [getterFields, hrest]; rfl⟩
  | float r =>
    rcases hrest : getterFields g structName rest envPfx generated with ⟨restTxt, gen1⟩
    exact ⟨_, generated, by simp only [getterFields, hrest]; rfl⟩
  | bool b =>
    rcases hrest : getterFields g structName rest envPfx generated with ⟨restTxt, gen1⟩
    exact ⟨_, generated, by simp only [getterFields, hrest]; rfl⟩
  | other o =>
    rcases hrest : getterFields g structName rest envPfx generated with ⟨restTxt, gen1⟩
    exact ⟨_, generated, by simp only [getterFields, hrest]; rfl⟩
  | arr xs =>
    rcases hrest : getterFields g structName rest envPfx generated with ⟨restTxt, gen1⟩
    cases xs with
    | nil => exact ⟨_, generated, by simp only [getterFields, hrest]; rfl⟩
    | cons x tl =>
      cases x with
      | table m => exact ⟨_, generated, by simp only [getterFields, hrest]; rfl⟩
      | str s => exact ⟨_, generated, by simp only [getterFields, hrest]; rfl⟩
      | int n => exact ⟨_, generated, by simp only [getterFields, hrest]; rfl⟩
      | float r => exact ⟨_, generated, by simp only [getterFields, hrest]; rfl⟩
      | bool b => exact ⟨_, generated, by simp only [getterFields, hrest]; rfl⟩
      | other o => exact ⟨_, generated, by simp only [getterFields, hrest]; rfl⟩
      | arr ys => exact ⟨_, generated, by simp only [getterFields, hrest]; rfl⟩
      | arrTables ts => exact ⟨_, generated, by simp only [getterFields, hrest]; rfl⟩
  | arrTables ts =>
    rcases hrest : getterFields g structName rest envPfx generated with ⟨restTxt, gen1⟩
    cases ts with
    | nil => exact ⟨_, generated, by simp only [getterFields, hrest]; rfl⟩
    | cons t ts2 => exact ⟨_, generated, by simp only [getterFields, hrest]; rfl⟩

/-- Every array-valued binding of an entry list contributes its fixed
accessor — the no-override scalar-array text or the `return nil`
array-of-tables text — to the getter loop's output. -/
theorem getterFields_array_mem (g : Gen) (structName : String) :
    (entries : GoEntries) → ∀ (envPfx : String) (generated : List String)
        (k : String) (v : GoVal), entryMem k v entries →
      ((∀ x tl, v = .arr (.cons x tl) → (∀ m, x ≠ GoVal.table m) →
        ∃ pre post, (getterFields g structName entries envPfx generated).1
          = pre ++ getterScalarArrayText g structName (pascalCase k) (toGoType v)
              (getterEnvKey structName envPfx k) v ++ post)
       ∧ (∀ m tl, v = .arr (.cons (.table m) tl) →
        ∃ pre post, (getterFields g structName entries envPfx generated).1
          = pre ++ getterArrayOfStructsText structName (pascalCase k)
              (stripSuffix structName ++ pascalCase k ++ "Item") ++ post)
       ∧ (∀ t ts, v = .arrTables (.cons t ts) →
        ∃ pre post, (getterFields g structName entries envPfx generated).1
          = pre ++ getterArrayOfStructsText structName (pascalCase k)
              (stripSuffix structName ++ pascalCase k ++ "Item") ++ post))
  | .nil => by
    intro envPfx generated k v hmem
    simp only [entryMem] at hmem
  | .cons k2 v2 rest => by
    intro envPfx generated k v hmem
    simp only [entryMem] at hmem
    rcases hmem with ⟨hk, hv⟩ | hmem
    · subst hk
      subst hv
      refine ⟨?_, ?_, ?_⟩
      · intro x tl hvx hx
        subst hvx
        refine ⟨"", (getterFields g structName rest envPfx generated).1, ?_⟩
        rw [getterFields_cons_arrScalar g structName k envPfx generated x tl rest hx]
        rfl
      · intro m tl hvx
        subst hvx
        refine ⟨"", (getterFields g structName rest envPfx generated).1, ?_⟩
        rw [getterFields_cons_arrTable g structName k envPfx generated m tl rest]
        rfl
      · intro t ts hvx
        subst hvx
        refine ⟨"", (getterFields g structName rest envPfx generated).1, ?_⟩
        rw [getterFields_cons_arrTables g structName k envPfx generated t ts rest]
        rfl
    · obtain ⟨hd, gen1, hdec⟩ :=
        getterFields_cons_decomp g structName k2 envPfx generated v2 rest
      obtain ⟨c1, c2, c3⟩ := getterFields_array_mem g structName rest envPfx gen1 k v hmem
      refine ⟨?_, ?_, ?_⟩
      · intro x tl hvx hx
        obtain ⟨pre, post, hout⟩ := c1 x tl hvx hx
        exact ⟨hd ++ pre, post, by rw [hdec, hout]; simp [String.append_assoc]⟩
      · intro m tl hvx
        obtain ⟨pre, post, hout⟩ := c2 m tl hvx
        exact ⟨hd ++ pre, post, by rw [hdec, hout]; simp [String.append_assoc]⟩
      · intro t ts hvx
        obtain ⟨pre, post, hout⟩ := c3 t ts hvx
        exact ⟨hd ++ pre, post, by rw [hdec, hout]; simp [String.append_assoc]⟩

/-! ## Claim theorems: getter-mode arrays -/

/-- C8 (amended): in getter mode no array-valued field has an
environment-override path, but only arrays of scalars return the
generation-time default.  For every binding `(k, v)` of the field list
the getter loop walks: if `v` is an array of scalars, the emitted text
contains the fixed accessor `getterScalarArrayText`, whose environment
check holds only the comment "Array overrides not supported via env
vars" and whose sole `return` yields the generation-time literal of
`v`; if `v` is an array of tables (a `[]map[string]any` or a `[]any`
headed by a table), the emitted text contains the fixed accessor
`getterArrayOfStructsText`, which ignores the environment and returns
`nil` — not the generation-time value of the array. -/
theorem getter_array_no_override (g : Gen) (structName : String) (entries : GoEntries)
    (envPfx : String) (generated : List String) (k : String) (v : GoVal)
    (hmem : entryMem k v entries) :
    (∀ x tl, v = .arr (.cons x tl) → (∀ m, x ≠ GoVal.table m) →
      ∃ pre post, (getterFields g structName entries envPfx generated).1
        = pre ++ getterScalarArrayText g structName (pascalCase k) (toGoType v)
            (getterEnvKey structName envPfx k) v ++ post)
    ∧ (∀ m tl, v = .arr (.cons (.table m) tl) →
      ∃ pre post, (getterFields g structName entries envPfx generated).1
        = pre ++ getterArrayOfStructsText structName (pascalCase k)
            (stripSuffix structName ++ pascalCase k ++ "Item") ++ post)
    ∧ (∀ t ts, v = .arrTables (.cons t ts) →
      ∃ pre post, (getterFields g structName entries envPfx generated).1
        = pre ++ getterArrayOfStructsText structName (pascalCase k)
            (stripSuffix structName ++ pascalCase k ++ "Item") ++ post) :=
  getterFields_array_mem g structName entries envPfx generated k v hmem

/-- C8 witness: on a struct with a scalar-array field `ports` and an
array-of-tables field `servers`, the getter loop emits the no-override
scalar-array accessor for `ports` and the `return nil` accessor for
`servers`. -/
theorem getter_array_no_override_witness :
    entryMem "ports" (GoVal.arr (.cons (.int 8080) .nil))
      (.cons "ports" (GoVal.arr (.cons (.int 8080) .nil))
        (.cons "servers" (GoVal.arrTables (.cons (.cons "host" (.str "a") .nil) .nil)) .nil))
    ∧ (∃ pre post,
        (getterFields gNone "AppConfig"
            (.cons "ports" (GoVal.arr (.cons (.int 8080) .nil))
              (.cons "servers"
                (GoVal.arrTables (.cons (.cons "host" (.str "a") .nil) .nil)) .nil))
            "" []).1
          = pre ++ getterScalarArrayText gNone "AppConfig" (pascalCase "ports")
              (toGoType (GoVal.arr (.cons (.int 8080) .nil)))
              (getterEnvKey "AppConfig" "" "ports")
              (GoVal.arr (.cons (.int 8080) .nil)) ++ post)
    ∧ (∃ pre post,
        (getterFields gNone "AppConfig"
            (.cons "ports" (GoVal.arr (.cons (.int 8080) .nil))
              (.cons "servers"
                (GoVal.arrTables (.cons (.cons "host" (.str "a") .nil) .nil)) .nil))
            "" []).1
          = pre ++ getterArrayOfStructsText "AppConfig" (pascalCase "servers")
              (stripSuffix "AppConfig" ++ pascalCase "servers" ++ "Item") ++ post) := by
  have hm1 : entryMem "ports" (GoVal.arr (.cons (.int 8080) .nil))
      (.cons "ports" (GoVal.arr (.cons (.int 8080) .nil))
        (.cons "servers" (GoVal.arrTables (.cons (.cons "host" (.str "a") .nil) .nil)) .nil)) :=
    Or.inl ⟨rfl, rfl⟩
  have hm2 : entryMem "servers" (GoVal.arrTables (.cons (.cons "host" (.str "a") .nil) .nil))
      (.cons "ports" (GoVal.arr (.cons (.int 8080) .nil))
        (.cons "servers" (GoVal.arrTables (.cons (.cons "host" (.str "a") .nil) .nil)) .nil)) :=
    Or.inr (Or.inl ⟨rfl, rfl⟩)
  refine ⟨hm1, ?_, ?_⟩
  · exact (getter_array_no_override gNone "AppConfig" _ "" [] "ports" _ hm1).1
      (.int 8080) .nil rfl (fun m h => GoVal.noConfusion h)
  · exact (getter_array_no_override gNone "AppConfig" _ "" [] "servers" _ hm2).2.2
      (.cons "host" (.str "a") .nil) .nil rfl

/-- C8 counterexample: the claim that an array-valued field's accessor
"always returns the generation-time default value of that array" fails
for arrays of tables.  The emitted accessor is one fixed text ending in
`return nil`, identical for two different generation-time default
arrays, so it cannot return the default of either. -/
theorem getter_array_counterexample :
    (getterMethods gNone "ServiceConfig"
        (.cons "servers" (GoVal.arrTables (.cons (.cons "host" (.str "a") .nil) .nil)) .nil)
        "" []).1
      = "func (ServiceConfig) Servers() []ServiceServersItem \x7b\n\t// Arrays of structs cannot be overridden via env vars\n\treturn nil\n\x7d\n\n"
    ∧ (getterMethods gNone "ServiceConfig"
        (.cons "servers" (GoVal.arrTables (.cons (.cons "host" (.str "b") .nil)
            (.cons (.cons "host" (.str "c") .nil) .nil))) .nil)
        "" []).1
      = "func (ServiceConfig) Servers() []ServiceServersItem \x7b\n\t// Arrays of structs cannot be overridden via env vars\n\treturn nil\n\x7d\n\n"
    ∧ GoVal.arrTables (.cons (.cons "host" (.str "a") .nil) .nil)
        ≠ GoVal.arrTables (.cons (.cons "host" (.str "b") .nil)
            (.cons (.cons "host" (.str "c") .nil) .nil)) := by
  refine ⟨?_, ?_, ?_⟩
  · simp only [getterMethods, getterFields, sortEntries, insertEntry]
    rfl
  · simp only [getterMethods, getterFields, sortEntries, insertEntry]
    rfl
  · intro h
    injection h with h1
    injection h1 with _ h2
    exact GoTableList.noConfusion h2

end Cfgx
